import Mathlib

/-!
Verification of the mapping-preserving rewrite engine of `quran_transcript`.

The development shallowly embeds the Python sources:
  * `phonetics/conv_base_operation.py` — `MappingPos`, `merge_mappings`,
    `get_mappings` (the Levenshtein-opcode walk, the four post-passes and the
    final contiguity validation) and `sub_with_mapping`;
  * `phonetics/phonetizer.py` — `quran_phonetizer` as a chain of
    mapping-aware substitutions;
  * `phonetics/search.py` — the consistency check of `PhoneticSearch.__init__`;
  * `phonetics/tajweed_rulses.py` — the dynamic-attribute table of `MaddRule`
    and `is_ph_str_in`;
  * `phonetics/error_explainer.py` — `extract_ref_phonetic_to_uthmani`.

Texts are lists of codepoints (`List Char`).  The two external libraries the
engine calls — Python's `re` (pattern substitution) and `Levenshtein.opcodes`
(edit scripts) — are not part of the repository; their outputs enter the
embedding as explicit arguments (the substituted text and the opcode list).
Python runtime failures (IndexError, AttributeError, ValueError, KeyError,
AssertionError) are modelled with an `Except` monad.
-/

namespace QuranTranscript

/-- Python exception kinds raised by the embedded code paths. -/
inductive PyErr
  | valueError
  | indexError
  | attributeError
  | assertionError
  | keyError
deriving DecidableEq, Repr

/-! ### Alphabet constants

The alphabet tables (`quran_transcript.alphabet`) are an external collaborator
of the engine and are not among the sources; the spec (§6) lists the constants
the engine reads.  Each is modelled as a fixed codepoint, chosen to match the
literal texts appearing in the spec's scenarios and the repository's tests
(they are pairwise distinct, which is all the engine relies on). -/

/-- Modelled from the spec: `alph.uthmani.space`.  Scenario texts in the spec
and the tests separate words with the ordinary space codepoint. -/
def uthmaniSpace : Char := ' '

/-- Modelled from the spec: `alph.uthmani.shadda`, the gemination mark
(U+0651, as written in the shadda-assimilation scenario `لَكُم مَّا`). -/
def uthmaniShadda : Char := 'ّ'

/-- Modelled from the spec: `alph.uthmani.ras_haaa`, the skoon sign
(U+06E1, the small dotless head of khah used as sukun in Uthmani script). -/
def uthmaniRasHaaa : Char := 'ۡ'

/-- Modelled from the spec: `alph.uthmani.tanween_idhaam_dterminer`, the
special tanween-before-idgham determiner symbol (U+06DD chosen as a distinct
placeholder codepoint; only distinctness is used). -/
def tanweenIdhaamDeterminer : Char := '۝'

/-- Modelled from the spec: `alph.phonetics.qlqla`, the qalqalah marker
(U+0687, the codepoint appended after the qalqalah letter in the repository's
own test `وَقِۦۦلَ مَنْۜ رَااااق` → `... رَااااقڇ`). -/
def phQlqla : Char := 'ڇ'

/-- Modelled from the spec: `alph.phonetics.alif` (U+0627). -/
def phAlif : Char := 'ا'

/-- Modelled from the spec: `alph.phonetics.waw_madd` (U+0648). -/
def phWawMadd : Char := 'و'

/-- Modelled from the spec: `alph.phonetics.yaa_madd` (U+06E6, the codepoint
used for the yaa elongation in the spec's scenario `ررَحِۦۦۦۦم`). -/
def phYaaMadd : Char := 'ۦ'

/-! ### Python sequence-indexing helpers

Python list and string indexing admits negative indices (counting from the
end) and raises `IndexError` out of range. -/

/-- Python index resolution: `l[i]` for a sequence of length `n`. -/
def pyIdx (n : Nat) (i : Int) : Except PyErr Nat :=
  if 0 ≤ i then
    if i < (n : Int) then .ok i.toNat else .error .indexError
  else
    if -i ≤ (n : Int) then .ok (((n : Int) + i).toNat) else .error .indexError

/-- Python `l[i]` (read). -/
def pyGet {α : Type} (l : List α) (i : Int) : Except PyErr α := do
  let k ← pyIdx l.length i
  match l.get? k with
  | some x => .ok x
  | none => .error .indexError

/-- Python `l[i] = x` (write). -/
def pySet {α : Type} (l : List α) (i : Int) (x : α) : Except PyErr (List α) := do
  let k ← pyIdx l.length i
  .ok (l.set k x)

/-- Read-modify-write of `l[i]`, as Python statements such as
`l[i].pos = (l[i].pos[0], e)` do on a list of objects. -/
def pyModify {α : Type} (l : List α) (i : Int) (f : α → α) : Except PyErr (List α) := do
  let x ← pyGet l i
  pySet l i (f x)

/-! ### Data model: tajweed rules and mapping spans
(`conv_base_operation.py`, `tajweed_rulses.py`) -/

/-- A tajweed rule as the mapping engine observes it: display names, the
canonical elongation count and the optional subtype tag
(`tajweed_rulses.TajweedRule`). -/
structure TajweedRule where
  nameAr : String
  nameEn : String
  golden_len : Nat
  tag : Option String
deriving DecidableEq, Repr

/-- The `NormalMaddRule` default instance (`tajweed_rulses.NormalMaddRule`). -/
def normalMaddRule : TajweedRule :=
  { nameAr := "المد الطبيعي", nameEn := "Normal Madd", golden_len := 2, tag := none }

/-- `conv_base_operation.MappingPos`: span of one source character in the
current output text, its accumulated tajweed rules (`None` ≠ empty list in
Python; both are kept apart) and the deletion flag. -/
structure MappingPos where
  pos : Nat × Nat
  tajweed_rules : Option (List TajweedRule) := none
  deleted : Bool := false
deriving DecidableEq, Repr

/-- `MappingPos.add_tajweed_rule` for a list argument: Python returns early on
falsy input (`None` or `[]`), creates the list when absent, and extends it
otherwise. -/
def MappingPos.add_tajweed_rule (m : MappingPos) (new : Option (List TajweedRule)) :
    MappingPos :=
  match new with
  | none => m
  | some [] => m
  | some rs =>
    match m.tajweed_rules with
    | none => { m with tajweed_rules := some rs }
    | some old => { m with tajweed_rules := some (old ++ rs) }

/-- `MappingPos.add_tajweed_rule` called with a single (optional) rule object,
as the opcode walk does with its `tajweed_rule` argument. -/
def MappingPos.addRuleOpt (m : MappingPos) (r : Option TajweedRule) : MappingPos :=
  m.add_tajweed_rule (r.map fun x => [x])

/-- Elementwise traversal in the `Except` monad, the functional rendering of
Python's `for idx in range(len(l)): l[idx] = f(l[idx])` in-place loops (each
iteration reads and writes only its own slot). -/
def mapExcept {α β : Type} (f : α → Except PyErr β) : List α → Except PyErr (List β)
  | [] => .ok []
  | x :: xs => do
    let y ← f x
    let ys ← mapExcept f xs
    .ok (y :: ys)

/-! ### The mapping merger (`merge_mappings`) -/

/-- Body of the `for idx in range(len(mappings))` loop of `merge_mappings` for
one accumulated entry: reposition it through the step mapping, append the step
rules over `range(start, end)` and recompute the deletion flag.  (The guard
`if old_map is None: raise ValueError()` of the source cannot fire here: the
embedding's mapping lists contain no `None` entries, matching the declared
`MappingListType`.) -/
def mergeEntry (new_mappings : List MappingPos) (old : MappingPos) :
    Except PyErr MappingPos := do
  let start := old.pos.1
  let stop := old.pos.2
  let withPos ←
    if old.deleted then
      if start < new_mappings.length then do
        let m ← pyGet new_mappings (Int.ofNat start)
        pure { old with pos := (m.pos.1, m.pos.1) }
      else do
        let m ← pyGet new_mappings (-1)
        pure { old with pos := (m.pos.2, m.pos.2) }
    else do
      let mLo ← pyGet new_mappings (Int.ofNat start)
      let mHi ← pyGet new_mappings (Int.ofNat stop - 1)
      pure { old with pos := (mLo.pos.1, mHi.pos.2) }
  let res ← (List.range' start (stop - start)).foldlM
    (fun (acc : MappingPos × Bool) k => do
      let sm ← pyGet new_mappings (Int.ofNat k)
      pure (acc.1.add_tajweed_rule sm.tajweed_rules, acc.2 && sm.deleted))
    (withPos, true)
  pure { res.1 with deleted := res.2 }

/-- `conv_base_operation.merge_mappings`: compose the accumulated
original-to-current mapping with the freshly produced step mapping.  Returns
the step mapping when the accumulator is `None`; raises `ValueError` on an
empty step mapping. -/
def merge_mappings (mappings : Option (List MappingPos))
    (new_mappings : List MappingPos) : Except PyErr (List MappingPos) :=
  match mappings with
  | none => .ok new_mappings
  | some ms =>
    if new_mappings = [] then .error .valueError
    else mapExcept (mergeEntry new_mappings) ms

/-! ### The opcode walk of `get_mappings` -/

/-- Levenshtein opcode kinds, in the library's tuple encoding
`(tag, i1, i2, j1, j2)`. -/
inductive OpTag
  | equal
  | insert
  | replace
  | delete
deriving DecidableEq, Repr

/-- One opcode `(tag, i1, i2, j1, j2)` of `Levenshtein.opcodes(text, new_text)`:
source range `[i1, i2)`, destination range `[j1, j2)`. -/
structure Opcode where
  tag : OpTag
  i1 : Nat
  i2 : Nat
  j1 : Nat
  j2 : Nat
deriving DecidableEq, Repr

/-- `zip(range(i1, i2), range(j1, j2))`. -/
def zipRanges (i1 i2 j1 j2 : Nat) : List (Nat × Nat) :=
  List.zip (List.range' i1 (i2 - i1)) (List.range' j1 (j2 - j1))

/-- Read `new_mappings[i]` expecting a set entry; Python raises
`AttributeError` when the slot still holds `None` and an attribute such as
`.pos` is accessed on it. -/
def entryGet (nm : List (Option MappingPos)) (i : Int) : Except PyErr MappingPos := do
  match (← pyGet nm i) with
  | some m => .ok m
  | none => .error .attributeError

/-- Read-modify-write of a set entry of `new_mappings`. -/
def entryModify (nm : List (Option MappingPos)) (i : Int)
    (f : MappingPos → MappingPos) : Except PyErr (List (Option MappingPos)) := do
  let m ← entryGet nm i
  pySet nm i (some (f m))

/-- The `equal` branch of the opcode walk: give every still-unset source index
of the op its one-codepoint destination span. -/
def applyEqual (nm : List (Option MappingPos)) (op : Opcode) :
    Except PyErr (List (Option MappingPos)) :=
  (zipRanges op.i1 op.i2 op.j1 op.j2).foldlM
    (fun nm p => do
      match (← pyGet nm (Int.ofNat p.1)) with
      | none => pySet nm (Int.ofNat p.1) (some { pos := (p.2, p.2 + 1) })
      | some _ => pure nm)
    nm

/-- The `replace` branch of the opcode walk: claim still-unset, not
deferred-deleted source indices; a source space codepoint is instead marked
deleted and absorbed into the preceding entry. -/
def applyReplace (text : List Char) (rule : Option TajweedRule) (toDel : List Nat)
    (nm : List (Option MappingPos)) (op : Opcode) :
    Except PyErr (List (Option MappingPos)) :=
  (zipRanges op.i1 op.i2 op.j1 op.j2).foldlM
    (fun nm p => do
      match (← pyGet nm (Int.ofNat p.1)) with
      | some _ => pure nm
      | none =>
        if p.1 ∈ toDel then pure nm
        else do
          let c ← pyGet text (Int.ofNat p.1)
          if c ≠ uthmaniSpace then
            pySet nm (Int.ofNat p.1)
              (some (MappingPos.addRuleOpt { pos := (p.2, p.2 + 1) } rule))
          else do
            let nm ← pySet nm (Int.ofNat p.1)
              (some { pos := (p.2 + 1, p.2 + 1), deleted := true })
            entryModify nm (Int.ofNat p.1 - 1)
              (fun m => { m with pos := (m.pos.1, p.2 + 1) }))
    nm

/-- The `delete` branch of the opcode walk: anchor every deleted source index
at the destination position and attach the step rule. -/
def applyDelete (rule : Option TajweedRule) (nm : List (Option MappingPos))
    (op : Opcode) : Except PyErr (List (Option MappingPos)) :=
  (List.range' op.i1 (op.i2 - op.i1)).foldlM
    (fun nm oi =>
      pySet nm (Int.ofNat oi)
        (some (MappingPos.addRuleOpt { pos := (op.j1, op.j1), deleted := true } rule)))
    nm

/-- Relationship of the current `insert` op with the preceding op:
`eq_ins_same` / `eq_ins_not_same` of the source, remembering the preceding
`equal` op for the later back-references. -/
inductive InsFlag
  | neither
  | same (lastOp : Opcode)
  | notSame (lastOp : Opcode)

/-- Mark `range(lo, hi)` deleted at `anchor` and record the indices in the
deferred-delete set (`to_del_poses`). -/
def markDeletedRange (lo hi anchor : Nat)
    (st : List (Option MappingPos) × List Nat) :
    Except PyErr (List (Option MappingPos) × List Nat) :=
  (List.range' lo (hi - lo)).foldlM
    (fun st oi => do
      let nm ← pySet st.1 (Int.ofNat oi) (some { pos := (anchor, anchor), deleted := true })
      pure (nm, st.2 ++ [oi]))
    st

/-- First half of the `insert` branch: the look-behind at the preceding op,
computing `eq_ins_same` / `eq_ins_not_same` and, in the former case, already
widening the last entry of the preceding equal run. -/
def insFlagStage (newText : List Char) (rule : Option TajweedRule)
    (last? : Option Opcode) (curr : Opcode) (nm : List (Option MappingPos)) :
    Except PyErr (List (Option MappingPos) × InsFlag) :=
  match last? with
  | some lastOp =>
    if lastOp.tag = OpTag.equal then do
      let a ← pyGet newText (Int.ofNat lastOp.j2 - 1)
      let b ← pyGet newText (Int.ofNat curr.j1)
      if a = b then do
        let nm ← entryModify nm (Int.ofNat lastOp.i2 - 1)
          (fun m => MappingPos.addRuleOpt { m with pos := (m.pos.1, curr.j2) } rule)
        pure (nm, InsFlag.same lastOp)
      else
        pure (nm, InsFlag.notSame lastOp)
    else pure (nm, InsFlag.neither)
  | none => pure (nm, InsFlag.neither)

/-- Second half of the `insert` branch: the look-ahead dispatch on the next
op (elongation with diacritic, complete replacement, insert-before-equal
binding, trailing insert). -/
def insNextStage (newText : List Char) (rule : Option TajweedRule)
    (curr : Opcode) (next? : Option Opcode) (flag : InsFlag)
    (nm : List (Option MappingPos)) (toDel : List Nat) :
    Except PyErr (List (Option MappingPos) × List Nat) :=
  match next? with
  | some nextOp =>
    match flag with
    | InsFlag.same lastOp =>
      if nextOp.tag = OpTag.replace then do
        let a ← pyGet newText (Int.ofNat curr.j2 - 1)
        let b ← pyGet newText (Int.ofNat nextOp.j1)
        if a = b then do
          let nm ← entryModify nm (Int.ofNat lastOp.i2 - 1)
            (fun m => { m with pos := (m.pos.1, nextOp.j2) })
          markDeletedRange nextOp.i1 nextOp.i2 nextOp.j2 (nm, toDel)
        else pure (nm, toDel)
      else pure (nm, toDel)
    | _ =>
      if nextOp.tag = OpTag.replace then do
        let nm ← pySet nm (Int.ofNat nextOp.i1)
          (some (MappingPos.addRuleOpt { pos := (curr.j1, nextOp.j2) } rule))
        markDeletedRange (nextOp.i1 + 1) nextOp.i2 nextOp.j2 (nm, toDel)
      else if nextOp.tag = OpTag.equal then do
        let a ← pyGet newText (Int.ofNat curr.j2 - 1)
        let b ← pyGet newText (Int.ofNat nextOp.j1)
        if a = b then do
          let nm ← pySet nm (Int.ofNat nextOp.i1)
            (some (MappingPos.addRuleOpt { pos := (curr.j1, nextOp.j1 + 1) } rule))
          pure (nm, toDel)
        else
          match flag with
          | InsFlag.notSame lastOp => do
            let nm ← entryModify nm (Int.ofNat lastOp.i2 - 1)
              (fun m => MappingPos.addRuleOpt { m with pos := (m.pos.1, curr.j2) } rule)
            pure (nm, toDel)
          | _ => do
            let nm ← pySet nm (Int.ofNat nextOp.i1)
              (some (MappingPos.addRuleOpt { pos := (curr.j1, nextOp.j1 + 1) } rule))
            pure (nm, toDel)
      else .error .assertionError
  | none =>
    match flag with
    | InsFlag.notSame lastOp => do
      let nm ← entryModify nm (Int.ofNat lastOp.i2 - 1)
        (fun m => MappingPos.addRuleOpt { m with pos := (m.pos.1, curr.j2) } rule)
      pure (nm, toDel)
    | _ => pure (nm, toDel)

/-- The `insert` branch of the opcode walk, with its one-step lookbehind and
lookahead (elongation with and without diacritic, complete replacement,
insert-before-equal binding). -/
def applyInsert (newText : List Char) (rule : Option TajweedRule)
    (last? : Option Opcode) (curr : Opcode) (next? : Option Opcode)
    (nm : List (Option MappingPos)) (toDel : List Nat) :
    Except PyErr (List (Option MappingPos) × List Nat) := do
  let r ← insFlagStage newText rule last? curr nm
  insNextStage newText rule curr next? r.2 r.1 toDel

/-- Dispatch of one loop iteration of the opcode walk on the current opcode's
kind. -/
def walkDispatch (text newText : List Char) (rule : Option TajweedRule)
    (last? : Option Opcode) (curr : Opcode) (next? : Option Opcode)
    (nm : List (Option MappingPos)) (toDel : List Nat) :
    Except PyErr (List (Option MappingPos) × List Nat) :=
  match curr.tag with
  | OpTag.insert => applyInsert newText rule last? curr next? nm toDel
  | OpTag.replace => do
    let nm ← applyReplace text rule toDel nm curr
    pure (nm, toDel)
  | OpTag.equal => do
    let nm ← applyEqual nm curr
    pure (nm, toDel)
  | OpTag.delete => do
    let nm ← applyDelete rule nm curr
    pure (nm, toDel)

/-- The opcode walk proper (`for op_idx in range(len(ops))`), carrying the
previous opcode, the current one and the remaining list. -/
def walkOps (text newText : List Char) (rule : Option TajweedRule) :
    Option Opcode → Opcode → List Opcode →
    List (Option MappingPos) × List Nat →
    Except PyErr (List (Option MappingPos) × List Nat)
  | last?, curr, rest, st => do
    let st2 ← walkDispatch text newText rule last? curr rest.head? st.1 st.2
    match rest with
    | [] => pure st2
    | c :: r => walkOps text newText rule (some curr) c r st2

/-- Build the per-step mapping of `get_mappings`: initialise
`new_mappings = [None] * len(text)`, run the opcode walk (`ops[0]` raises
`IndexError` on an empty opcode list) and check the
`assert all(m is not None for m in new_mappings)`. -/
def buildStepMappings (text newText : List Char) (rule : Option TajweedRule)
    (ops : List Opcode) : Except PyErr (List (Option MappingPos)) := do
  match ops with
  | [] => .error .indexError
  | c :: r => do
    let st ← walkOps text newText rule none c r
      (List.replicate text.length none, [])
    if st.1.all (fun x => x.isSome) then pure st.1
    else .error .assertionError

/-! ### Post-passes of `get_mappings` -/

/-- `_madd_to_tag`, the elongation-codepoint to tag-name table built by
`MaddRule.__post_init__`. -/
def maddToTag : List (Char × String) :=
  [(phAlif, "alif"), (phWawMadd, "waw"), (phYaaMadd, "yaa")]

/-- Leen-madd tagging for one rule object: a rule named "Leen Madd" whose tag
is unset receives `_madd_to_tag[new_text[span.start]]` (`KeyError` when the
codepoint is not an elongation codepoint). -/
def leenFixRule (newText : List Char) (startPos : Nat) (r : TajweedRule) :
    Except PyErr TajweedRule :=
  if r.nameEn = "Leen Madd" ∧ r.tag = none then do
    let c ← pyGet newText (Int.ofNat startPos)
    match maddToTag.lookup c with
    | some t => .ok { r with tag := some t }
    | none => .error .keyError
  else .ok r

/-- Leen-madd post-pass on one mapping entry; Python's truthiness test
`if new_mappings[m_idx].tajweed_rules:` skips both `None` and `[]`. -/
def leenPassEntry (newText : List Char) (m : MappingPos) : Except PyErr MappingPos :=
  match m.tajweed_rules with
  | none => pure m
  | some [] => pure m
  | some rs => do
    let rs2 ← mapExcept (leenFixRule newText m.pos.1) rs
    pure { m with tajweed_rules := some rs2 }

/-- Leen-madd post-pass (the first `for m_idx in range(len(new_mappings))`
loop after the walk). -/
def leenPass (newText : List Char) (nm : List MappingPos) :
    Except PyErr (List MappingPos) :=
  mapExcept (leenPassEntry newText) nm

/-- Scanner for `re.finditer(f"{tanween_idhaam_dterminer}[^$]", text)`; the
`skip` counter steps over the tail of the previous (non-overlapping) match. -/
def tanweenGo : List Char → Nat → Nat → List Nat
  | [], _, _ => []
  | a :: rest, i, skip =>
    if skip > 0 then tanweenGo rest (i + 1) (skip - 1)
    else
      match rest with
      | [] => []
      | b :: _ =>
        if a = tanweenIdhaamDeterminer ∧ b ≠ '$' then i :: tanweenGo rest (i + 1) 1
        else tanweenGo rest (i + 1) 0

/-- Match starts of `re.finditer(f"{tanween_idhaam_dterminer}[^$]", text)`:
the determiner followed by any codepoint other than `$`, scanned left to
right without overlap. -/
def tanweenMatches (text : List Char) (i : Nat) : List Nat :=
  tanweenGo text i 0

/-- Action of the tanween-before-idgham post-pass at one match index. -/
def tanweenApply (text newText : List Char) (nm : List MappingPos) (idx : Nat) :
    Except PyErr (List MappingPos) := do
  let mIdx ← pyGet nm (Int.ofNat idx)
  let tc ← pyGet text (Int.ofNat idx)
  let nc ← pyGet newText (Int.ofNat mIdx.pos.1)
  if tc ≠ nc then do
    let nm ← pyModify nm (Int.ofNat idx - 1)
      (fun m => { m with pos := (m.pos.1, mIdx.pos.2) })
    let nm ← pyModify nm (Int.ofNat idx)
      (fun m => { m with pos := (m.pos.2, m.pos.2), deleted := true })
    pure nm
  else pure nm

/-- Tanween-before-idgham post-pass. -/
def tanweenPass (text newText : List Char) (nm : List MappingPos) :
    Except PyErr (List MappingPos) :=
  (tanweenMatches text 0).foldlM (tanweenApply text newText) nm

/-- Scanner for `re.finditer(f"([^{space}]){space}?\\1{shadda}", text)`; the
`skip` counter steps over the tail of the previous match. -/
def shaddaGo : List Char → Nat → Nat → List (Nat × Nat)
  | [], _, _ => []
  | a :: rest, i, skip =>
    if skip > 0 then shaddaGo rest (i + 1) (skip - 1)
    else
      match rest with
      | b :: c :: rest2 =>
        if a ≠ uthmaniSpace ∧ b = uthmaniSpace then
          match rest2 with
          | d :: _ =>
            if c = a ∧ d = uthmaniShadda then (i, i + 4) :: shaddaGo rest (i + 1) 3
            else shaddaGo rest (i + 1) 0
          | [] => shaddaGo rest (i + 1) 0
        else if a ≠ uthmaniSpace ∧ b = a ∧ c = uthmaniShadda then
          (i, i + 3) :: shaddaGo rest (i + 1) 2
        else shaddaGo rest (i + 1) 0
      | _ => []

/-- Match spans `(start, end)` of
`re.finditer(f"([^{space}]){space}?\\1{shadda}", text)`: a non-space
codepoint, an optional space, the same codepoint again and a shadda (the
greedy optional space backtracks exactly as the Python engine does, since the
captured codepoint is never the space). -/
def shaddaMatches (text : List Char) (i : Nat) : List (Nat × Nat) :=
  shaddaGo text i 0

/-- Action of the shadda-assimilation post-pass at one match span: when the
first letter survives and the second is deleted, move the surviving span onto
the second letter and delete everything before it. -/
def shaddaApply (nm : List MappingPos) (span : Nat × Nat) :
    Except PyErr (List MappingPos) := do
  let first := span.1
  let second := span.2 - 2
  let mFirst ← pyGet nm (Int.ofNat first)
  let mSecond ← pyGet nm (Int.ofNat second)
  if (!mFirst.deleted) && mSecond.deleted then do
    let nm ← pySet nm (Int.ofNat second) mFirst
    (List.range' first (second - first)).foldlM
      (fun nm idx =>
        pySet nm (Int.ofNat idx) { pos := (mFirst.pos.1, mFirst.pos.1), deleted := true })
      nm
  else pure nm

/-- Shadda-assimilation post-pass. -/
def shaddaPass (text : List Char) (nm : List MappingPos) :
    Except PyErr (List MappingPos) :=
  (shaddaMatches text 0).foldlM shaddaApply nm

/-- Scanner for `re.finditer(f"[^{ras_haaa}{shadda}]({qlqla})", new_text)`;
the `skip` counter steps over the tail of the previous match. -/
def qalqalahGo : List Char → Nat → Nat → List Nat
  | [], _, _ => []
  | a :: rest, i, skip =>
    if skip > 0 then qalqalahGo rest (i + 1) (skip - 1)
    else
      match rest with
      | [] => []
      | b :: _ =>
        if a ≠ uthmaniRasHaaa ∧ a ≠ uthmaniShadda ∧ b = phQlqla then
          (i + 1) :: qalqalahGo rest (i + 1) 1
        else qalqalahGo rest (i + 1) 0

/-- Indices `q = span(1)[0]` of
`re.finditer(f"[^{ras_haaa}{shadda}]({qlqla})", new_text)`: a qalqalah marker
right after a codepoint that is neither the skoon sign nor a shadda. -/
def qalqalahMatches (text : List Char) (i : Nat) : List Nat :=
  qalqalahGo text i 0

/-- The `m_idx` search loop of the qalqalah post-pass: the first index whose
span starts at `q`; Python's loop leaves `m_idx` at the last index when none
matches, and at `0` on an empty list. -/
def qalqalahFindIdx (nm : List MappingPos) (q : Nat) : Nat :=
  if nm.length = 0 then 0
  else
    match nm.findIdx? (fun m => m.pos.1 == q) with
    | some k => k
    | none => nm.length - 1

/-- Action of the qalqalah post-pass at one marker index `q`: locate the first
merged entry starting at `q` (Python's search loop leaves `m_idx` at the last
index when none matches, and at `0` on an empty list) and, when the previous
entry carries no rules object at all (`tajweed_rules is None`), absorb the
marker's span and rules into it. -/
def qalqalahApply (nm : List MappingPos) (q : Nat) :
    Except PyErr (List MappingPos) := do
  let mIdx : Nat := qalqalahFindIdx nm q
  let prev ← pyGet nm (Int.ofNat mIdx - 1)
  if prev.tajweed_rules = none then do
    let mK ← pyGet nm (Int.ofNat mIdx)
    let nm ← pyModify nm (Int.ofNat mIdx - 1)
      (fun m => { m with pos := (m.pos.1, mK.pos.2) })
    let mK2 ← pyGet nm (Int.ofNat mIdx)
    let nm ← pyModify nm (Int.ofNat mIdx - 1)
      (fun m => { m with tajweed_rules := mK2.tajweed_rules })
    let nm ← pyModify nm (Int.ofNat mIdx)
      (fun m => { m with pos := (m.pos.2, m.pos.2) })
    let nm ← pyModify nm (Int.ofNat mIdx)
      (fun m => { m with deleted := true })
    let nm ← pyModify nm (Int.ofNat mIdx)
      (fun m => { m with tajweed_rules := none })
    pure nm
  else pure nm

/-- Qalqalah post-pass (runs on the merged mapping). -/
def qalqalahPass (newText : List Char) (nm : List MappingPos) :
    Except PyErr (List MappingPos) :=
  (qalqalahMatches newText 0).foldlM qalqalahApply nm

/-- Final validation loop of `get_mappings`: every entry's end must equal the
next entry's start, the last entry closing at `len(new_text)` (the sentinel
`MappingPos(pos=(len(new_text), -1))`; its second component is never read).
At this point no entry is `None` — the walk asserted all slots set and the
merger rejects `None` entries — so the `None`-skipping arms of the source
loop are dead. -/
def chainOk (newTextLen : Nat) : List MappingPos → Bool
  | [] => true
  | [m] => m.pos.2 == newTextLen
  | a :: b :: rest => a.pos.2 == b.pos.1 && chainOk newTextLen (b :: rest)

/-! ### `get_mappings` and `sub_with_mapping` -/

/-- `conv_base_operation.get_mappings`, with the edit script of the external
`Levenshtein.opcodes(text, new_text)` supplied as the `ops` argument: empty
text short-circuits to `[]`; otherwise the walk builds the step mapping, the
leen / tanween / shadda passes adjust it, the merger composes it onto the
accumulated mapping, the qalqalah pass runs on the merged list and the
contiguity validation raises `ValueError` on any gap. -/
def get_mappings (text newText : List Char) (ops : List Opcode)
    (mappings : Option (List MappingPos)) (tajweed_rule : Option TajweedRule) :
    Except PyErr (List MappingPos) := do
  if text = [] then pure []
  else do
    let nmo ← buildStepMappings text newText tajweed_rule ops
    let nm ← leenPass newText (nmo.filterMap id)
    let nm ← tanweenPass text newText nm
    let nm ← shaddaPass text nm
    let merged ← merge_mappings mappings nm
    let merged ← qalqalahPass newText merged
    if chainOk newText.length merged then pure merged
    else .error .valueError

/-- `conv_base_operation.sub_with_mapping`: empty text returns `("", [])`
before any substitution; otherwise the substituted text (the output of the
external `re.sub`, supplied as `newText`) is returned together with the
mapping produced by `get_mappings`. -/
def sub_with_mapping (text newText : List Char) (ops : List Opcode)
    (mappings : Option (List MappingPos)) (tajweed_rule : Option TajweedRule) :
    Except PyErr (List Char × List MappingPos) := do
  if text = [] then pure ([], [])
  else do
    let m ← get_mappings text newText ops mappings tajweed_rule
    pure (newText, m)

/-! ### The phonetizer chain (`phonetizer.py`) -/

/-- One mapping-aware substitution step: the regex substitution and the
Levenshtein opcode computation are external libraries, entering as oracle
functions, together with the step's optional tajweed rule. -/
structure SubStep where
  subFn : List Char → List Char
  opsFn : List Char → List Char → List Opcode
  rule : Option TajweedRule

/-- Apply one substitution step to the current text and accumulated mapping,
exactly as every `sub_with_mapping(...)` call site of the phonetizer does. -/
def applySub (s : SubStep) (text : List Char) (mappings : Option (List MappingPos)) :
    Except PyErr (List Char × List MappingPos) :=
  let newText := s.subFn text
  sub_with_mapping text newText (s.opsFn text newText) mappings s.rule

/-- Modelled from the spec: `quran_phonetizer` (its operation table
`OPERATION_ORDER` lives in `operations.py`, which is not among the sources).
Per the spec (§4.3, §4.4) the phonetizer first runs the two whitespace-cleanup
substitutions — the first with no prior mapping — and then every
`(pattern, replacement, rule)` triple of every pipeline operation in declared
order, each through `sub_with_mapping` with the accumulated state; the sifat
projection is an external collaborator and does not touch text or mapping.
The pipeline is therefore modelled as an arbitrary list of substitution
steps, which also subsumes every Moshaf configuration (a configuration only
selects pattern variants). -/
def quran_phonetizer (clean1 clean2 : SubStep) (pipeline : List SubStep)
    (uthmani_text : List Char) : Except PyErr (List Char × List MappingPos) := do
  let st1 ← applySub clean1 uthmani_text none
  let st2 ← applySub clean2 st1.1 (some st1.2)
  pipeline.foldlM (fun st s => applySub s st.1 (some st.2)) st2

/-! ### `PhoneticSearch.__init__` (`search.py`) -/

/-- Python `str.strip()` whitespace class (ASCII part; the counterexamples
only use `'\n'`). -/
def pyIsSpace (c : Char) : Bool :=
  c == ' ' || c == '\t' || c == '\n' || c == '\r' || c == '\x0b' || c == '\x0c'

/-- Python `s.strip()`: drop leading and trailing whitespace. -/
def pyStrip (s : List Char) : List Char :=
  ((s.dropWhile pyIsSpace).reverse.dropWhile pyIsSpace).reverse

/-- State loaded by `PhoneticSearch.__init__`: the index table (one row of
seven unsigned 16-bit integers per phoneme group, modelled as a list of
rows) and the normalized reference phoneme string. -/
structure PhoneticSearchState where
  index : List (List Nat)
  ref_ph_norm : List Char
deriving DecidableEq, Repr

/-- `PhoneticSearch.__init__` after the two file reads (file access itself is
external; the two file contents enter as arguments): the reference string is
the **stripped** file content (`f.read().strip()`), and construction fails
with `ValueError` exactly when its length differs from the number of index
rows. -/
def phoneticSearchInit (refFileContent : List Char) (indexRows : List (List Nat)) :
    Except PyErr PhoneticSearchState :=
  let refNorm := pyStrip refFileContent
  if refNorm.length ≠ indexRows.length then .error .valueError
  else .ok { index := indexRows, ref_ph_norm := refNorm }

/-! ### `MaddRule` dynamic attributes (`tajweed_rulses.py`) -/

/-- The dynamic attribute table a `MaddRule` (hence also a `NormalMaddRule`)
instance owns after `__post_init__`: the constructor assigns exactly one
dictionary-valued attribute, named `_madd_to_tag`. -/
def maddRuleAttrs : List (String × List (Char × String)) :=
  [("_madd_to_tag", maddToTag)]

/-- Python attribute lookup on the dynamic attribute table: a missing name
raises `AttributeError`. -/
def pyGetAttr {α : Type} (attrs : List (String × α)) (name : String) :
    Except PyErr α :=
  match attrs.lookup name with
  | some v => .ok v
  | none => .error .attributeError

/-- `MaddRule.is_ph_str_in`: on a truthy (non-empty) string it evaluates
`ph_str[0] in self._madd_to_tags` — an attribute read of the name
`_madd_to_tags` on the instance's attribute table; on the empty string it
returns `False` without reading any attribute. -/
def maddRuleIsPhStrIn (attrs : List (String × List (Char × String)))
    (ph_str : List Char) : Except PyErr Bool :=
  match ph_str with
  | c :: _ => do
    let d ← pyGetAttr attrs "_madd_to_tags"
    pure (d.lookup c).isSome
  | [] => pure false

/-! ### `extract_ref_phonetic_to_uthmani` (`error_explainer.py`) -/

/-- Insert the phonetic indices `range(*map_pos.pos)` of source entry `idx`
into the dictionary (modelled as an association list in insertion order;
keys are never duplicated because a duplicate raises first), raising
`ValueError` on a key already present. -/
def insertRange (idx : Nat) (phs : List Nat) (d : List (Nat × Nat)) :
    Except PyErr (List (Nat × Nat)) :=
  phs.foldlM
    (fun d ph =>
      if (d.lookup ph).isSome then .error .valueError
      else .ok (d ++ [(ph, idx)]))
    d

/-- The `for idx, map_pos in enumerate(mappings)` loop of
`extract_ref_phonetic_to_uthmani`. -/
def extractGo : List MappingPos → Nat → List (Nat × Nat) →
    Except PyErr (List (Nat × Nat))
  | [], _, d => .ok d
  | mp :: rest, idx, d => do
    let d ← insertRange idx (List.range' mp.pos.1 (mp.pos.2 - mp.pos.1)) d
    extractGo rest (idx + 1) d

/-- `error_explainer.extract_ref_phonetic_to_uthmani`: invert a mapping list
into a phonetic-index → Uthmani-index dictionary, raising `ValueError` when a
phonetic index is claimed twice. -/
def extract_ref_phonetic_to_uthmani (mappings : List MappingPos) :
    Except PyErr (List (Nat × Nat)) :=
  extractGo mappings 0 []

/-! ### Spec-side predicates -/

/-- Adjacent spans of a list abut: every span's end is the next one's start. -/
def adjacentOk : List MappingPos → Bool
  | a :: b :: rest => a.pos.2 == b.pos.1 && adjacentOk (b :: rest)
  | _ => true

/-- The contiguity invariant as the spec states it: for any two consecutive
non-deleted spans (no non-deleted span between them), the first's end equals
the second's start — no gaps and no overlaps. -/
def specContiguous (m : List MappingPos) : Bool :=
  adjacentOk (m.filter (fun x => !x.deleted))

/-- The spec's deleted-span invariant (§3.1): a deleted span is a point,
`start == end`. -/
def deletedPointInv (m : List MappingPos) : Prop :=
  ∀ x ∈ m, x.deleted = true → x.pos.1 = x.pos.2

instance (m : List MappingPos) : Decidable (deletedPointInv m) := by
  unfold deletedPointInv; infer_instance

/-- Phonetic position `ph` lies in the span of entry `i` of the mapping
list. -/
def coversAt (m : List MappingPos) (i ph : Nat) : Prop :=
  ∃ x, m.get? i = some x ∧ x.pos.1 ≤ ph ∧ ph < x.pos.2

end QuranTranscript

namespace QuranTranscript

theorem ok_bind {α β : Type} (a : α) (f : α → Except PyErr β) :
    (Except.ok a >>= f : Except PyErr β) = f a := rfl

theorem error_bind {α β : Type} (e : PyErr) (f : α → Except PyErr β) :
    ((Except.error e : Except PyErr α) >>= f) = .error e := rfl

theorem pyIdx_ofNat {n i : Nat} (h : i < n) : pyIdx n (Int.ofNat i) = .ok i := by
  simp [pyIdx, h]

theorem pyGet_ofNat {α : Type} {l : List α} {i : Nat} {x : α}
    (h : l.get? i = some x) : pyGet l (Int.ofNat i) = .ok x := by
  have hi : i < l.length := by
    rcases List.get?_eq_some.mp h with ⟨hlt, _⟩
    exact hlt
  unfold pyGet
  simp only [pyIdx_ofNat hi, ok_bind, h]

theorem pySet_ofNat {α : Type} {l : List α} {i : Nat} (h : i < l.length) (x : α) :
    pySet l (Int.ofNat i) x = .ok (l.set i x) := by
  unfold pySet
  simp only [pyIdx_ofNat h, ok_bind]

theorem pyModify_ofNat {α : Type} {l : List α} {i : Nat} {x : α}
    (h : l.get? i = some x) (f : α → α) :
    pyModify l (Int.ofNat i) f = .ok (l.set i (f x)) := by
  have hi : i < l.length := by
    rcases List.get?_eq_some.mp h with ⟨hlt, _⟩
    exact hlt
  unfold pyModify
  simp only [pyGet_ofNat h, ok_bind, pySet_ofNat hi]

theorem pyGet_ok_length {α : Type} {l : List α} {i : Int} {x : α}
    (h : pyGet l i = .ok x) : ∃ k, k < l.length ∧ l.get? k = some x := by
  unfold pyGet at h
  cases hk : pyIdx l.length i with
  | error e => rw [hk, error_bind] at h; exact absurd h (by simp)
  | ok k =>
    rw [hk, ok_bind] at h
    cases hg : l.get? k with
    | none => rw [hg] at h; exact absurd h (by simp)
    | some y =>
      rw [hg] at h
      cases h
      refine ⟨k, ?_, hg⟩
      rcases List.get?_eq_some.mp hg with ⟨hlt, _⟩
      exact hlt

theorem pySet_ok_length {α : Type} {l l2 : List α} {i : Int} {x : α}
    (h : pySet l i x = .ok l2) : l2.length = l.length := by
  unfold pySet at h
  cases hk : pyIdx l.length i with
  | error e => rw [hk, error_bind] at h; exact absurd h (by simp)
  | ok k =>
    rw [hk, ok_bind] at h
    cases h
    simp

theorem pyModify_ok_length {α : Type} {l l2 : List α} {i : Int} {f : α → α}
    (h : pyModify l i f = .ok l2) : l2.length = l.length := by
  unfold pyModify at h
  cases hg : pyGet l i with
  | error e => rw [hg, error_bind] at h; exact absurd h (by simp)
  | ok x =>
    rw [hg, ok_bind] at h
    exact pySet_ok_length h

theorem entryGet_ok {nm : List (Option MappingPos)} {i : Int} {x : MappingPos}
    (h : entryGet nm i = .ok x) : pyGet nm i = .ok (some x) := by
  unfold entryGet at h
  cases hg : pyGet nm i with
  | error e => rw [hg, error_bind] at h; exact absurd h (by simp)
  | ok o =>
    rw [hg, ok_bind] at h
    cases o with
    | none => exact absurd h (by simp)
    | some m => cases h; rfl

theorem entryModify_ok_length {nm nm2 : List (Option MappingPos)} {i : Int}
    {f : MappingPos → MappingPos}
    (h : entryModify nm i f = .ok nm2) : nm2.length = nm.length := by
  unfold entryModify at h
  cases hg : entryGet nm i with
  | error e => rw [hg, error_bind] at h; exact absurd h (by simp)
  | ok x =>
    rw [hg, ok_bind] at h
    exact pySet_ok_length h

theorem foldlM_inv {σ β : Type} (P : σ → Prop) (f : σ → β → Except PyErr σ)
    (hf : ∀ s b s2, P s → f s b = .ok s2 → P s2) :
    ∀ (xs : List β) (s s2 : σ), P s → xs.foldlM f s = .ok s2 → P s2 := by
  intro xs
  induction xs with
  | nil => intro s s2 hP h; cases h; exact hP
  | cons x xs ih =>
    intro s s2 hP h
    rw [List.foldlM_cons] at h
    cases hx : f s x with
    | error e => rw [hx, error_bind] at h; exact absurd h (by simp)
    | ok s1 =>
      rw [hx, ok_bind] at h
      exact ih s1 s2 (hf s x s1 hP hx) h

theorem mapExcept_ok_length {α β : Type} {f : α → Except PyErr β} :
    ∀ {l : List α} {r : List β}, mapExcept f l = .ok r → r.length = l.length := by
  intro l
  induction l with
  | nil => intro r h; cases h; rfl
  | cons x xs ih =>
    intro r h
    unfold mapExcept at h
    cases hx : f x with
    | error e => rw [hx, error_bind] at h; exact absurd h (by simp)
    | ok y =>
      rw [hx, ok_bind] at h
      cases hxs : mapExcept f xs with
      | error e => rw [hxs, error_bind] at h; exact absurd h (by simp)
      | ok ys =>
        rw [hxs, ok_bind] at h
        cases h
        simp [ih hxs]

theorem mapExcept_ok_get {α β : Type} {f : α → Except PyErr β} :
    ∀ {l : List α} {r : List β}, mapExcept f l = .ok r →
      ∀ i x, l.get? i = some x → ∃ y, r.get? i = some y ∧ f x = .ok y := by
  intro l
  induction l with
  | nil => intro r h i x hx; simp at hx
  | cons a xs ih =>
    intro r h i x hx
    unfold mapExcept at h
    cases ha : f a with
    | error e => rw [ha, error_bind] at h; exact absurd h (by simp)
    | ok y =>
      rw [ha, ok_bind] at h
      cases hxs : mapExcept f xs with
      | error e => rw [hxs, error_bind] at h; exact absurd h (by simp)
      | ok ys =>
        rw [hxs, ok_bind] at h
        cases h
        cases i with
        | zero =>
          simp only [List.get?_cons_zero, Option.some.injEq] at hx
          subst hx
          exact ⟨y, rfl, ha⟩
        | succ n =>
          simp only [List.get?_cons_succ] at hx ⊢
          exact ih hxs n x hx

/-! ### Length preservation through the opcode walk -/

theorem applyEqual_ok_length {nm nm2 : List (Option MappingPos)} {op : Opcode}
    (h : applyEqual nm op = .ok nm2) : nm2.length = nm.length := by
  unfold applyEqual at h
  refine foldlM_inv (fun l => l.length = nm.length) _ ?_ _ nm nm2 rfl h
  intro s b s2 hs hstep
  cases hg : pyGet s (Int.ofNat b.1) with
  | error e => rw [hg, error_bind] at hstep; exact absurd hstep (by simp)
  | ok o =>
    rw [hg, ok_bind] at hstep
    cases o with
    | none => rw [← hs]; exact pySet_ok_length hstep
    | some m => cases hstep; exact hs

theorem applyReplace_ok_length {text : List Char} {rule : Option TajweedRule}
    {toDel : List Nat} {nm nm2 : List (Option MappingPos)} {op : Opcode}
    (h : applyReplace text rule toDel nm op = .ok nm2) : nm2.length = nm.length := by
  unfold applyReplace at h
  refine foldlM_inv (fun l => l.length = nm.length) _ ?_ _ nm nm2 rfl h
  intro s b s2 hs hstep
  cases hg : pyGet s (Int.ofNat b.1) with
  | error e => rw [hg, error_bind] at hstep; exact absurd hstep (by simp)
  | ok o =>
    rw [hg, ok_bind] at hstep
    cases o with
    | some m => cases hstep; exact hs
    | none =>
      by_cases hmem : b.1 ∈ toDel
      · rw [if_pos hmem] at hstep; cases hstep; exact hs
      · rw [if_neg hmem] at hstep
        cases hc : pyGet text (Int.ofNat b.1) with
        | error e => rw [hc, error_bind] at hstep; exact absurd hstep (by simp)
        | ok c =>
          rw [hc, ok_bind] at hstep
          by_cases hsp : c ≠ uthmaniSpace
          · rw [if_pos hsp] at hstep
            rw [← hs]; exact pySet_ok_length hstep
          · rw [if_neg hsp] at hstep
            cases hset : pySet s (Int.ofNat b.1)
                (some { pos := (b.2 + 1, b.2 + 1), deleted := true }) with
            | error e => rw [hset, error_bind] at hstep; exact absurd hstep (by simp)
            | ok s1 =>
              rw [hset, ok_bind] at hstep
              have h1 := pySet_ok_length hset
              have h2 := entryModify_ok_length hstep
              omega

theorem applyDelete_ok_length {rule : Option TajweedRule}
    {nm nm2 : List (Option MappingPos)} {op : Opcode}
    (h : applyDelete rule nm op = .ok nm2) : nm2.length = nm.length := by
  unfold applyDelete at h
  refine foldlM_inv (fun l => l.length = nm.length) _ ?_ _ nm nm2 rfl h
  intro s b s2 hs hstep
  rw [← hs]; exact pySet_ok_length hstep

theorem markDeletedRange_ok_length {lo hi anchor : Nat}
    {st st2 : List (Option MappingPos) × List Nat}
    (h : markDeletedRange lo hi anchor st = .ok st2) : st2.1.length = st.1.length := by
  unfold markDeletedRange at h
  refine foldlM_inv (fun s => s.1.length = st.1.length) _ ?_ _ st st2 rfl h
  intro s b s2 hs hstep
  cases hset : pySet s.1 (Int.ofNat b) (some { pos := (anchor, anchor), deleted := true }) with
  | error e => rw [hset, error_bind] at hstep; exact absurd hstep (by simp)
  | ok s1 =>
    rw [hset, ok_bind] at hstep
    cases hstep
    rw [← hs]
    exact pySet_ok_length hset

theorem insFlagStage_ok_length {newText : List Char} {rule : Option TajweedRule}
    {last? : Option Opcode} {curr : Opcode} {nm : List (Option MappingPos)}
    {r : List (Option MappingPos) × InsFlag}
    (h : insFlagStage newText rule last? curr nm = .ok r) : r.1.length = nm.length := by
  cases last? with
  | none => cases h; rfl
  | some lastOp =>
    simp only [insFlagStage] at h
    by_cases ht : lastOp.tag = OpTag.equal
    · rw [if_pos ht] at h
      cases ha : pyGet newText (Int.ofNat lastOp.j2 - 1) with
      | error e => rw [ha, error_bind] at h; exact absurd h (by simp)
      | ok a =>
        rw [ha, ok_bind] at h
        cases hb : pyGet newText (Int.ofNat curr.j1) with
        | error e => rw [hb, error_bind] at h; exact absurd h (by simp)
        | ok b =>
          rw [hb, ok_bind] at h
          by_cases hab : a = b
          · rw [if_pos hab] at h
            cases hm : entryModify nm (Int.ofNat lastOp.i2 - 1)
                (fun m => MappingPos.addRuleOpt { m with pos := (m.pos.1, curr.j2) } rule) with
            | error e => rw [hm, error_bind] at h; exact absurd h (by simp)
            | ok nm1 =>
              rw [hm, ok_bind] at h
              cases h
              exact entryModify_ok_length hm
          · rw [if_neg hab] at h
            cases h
            rfl
    · rw [if_neg ht] at h
      cases h
      rfl

theorem insNextStage_ok_length {newText : List Char} {rule : Option TajweedRule}
    {curr : Opcode} {next? : Option Opcode} {flag : InsFlag}
    {nm : List (Option MappingPos)} {toDel : List Nat}
    {st2 : List (Option MappingPos) × List Nat}
    (h : insNextStage newText rule curr next? flag nm toDel = .ok st2) :
    st2.1.length = nm.length := by
  cases next? with
  | none =>
    cases flag with
    | notSame lastOp =>
      simp only [insNextStage] at h
      cases hm : entryModify nm (Int.ofNat lastOp.i2 - 1)
          (fun m => MappingPos.addRuleOpt { m with pos := (m.pos.1, curr.j2) } rule) with
      | error e => rw [hm, error_bind] at h; exact absurd h (by simp)
      | ok nm1 =>
        rw [hm, ok_bind] at h
        cases h
        exact entryModify_ok_length hm
    | neither => simp only [insNextStage] at h; cases h; rfl
    | same lastOp => simp only [insNextStage] at h; cases h; rfl
  | some nextOp =>
    cases flag with
    | same lastOp =>
      simp only [insNextStage] at h
      by_cases ht : nextOp.tag = OpTag.replace
      · rw [if_pos ht] at h
        cases ha : pyGet newText (Int.ofNat curr.j2 - 1) with
        | error e => rw [ha, error_bind] at h; exact absurd h (by simp)
        | ok a =>
          rw [ha, ok_bind] at h
          cases hb : pyGet newText (Int.ofNat nextOp.j1) with
          | error e => rw [hb, error_bind] at h; exact absurd h (by simp)
          | ok b =>
            rw [hb, ok_bind] at h
            by_cases hab : a = b
            · rw [if_pos hab] at h
              cases hm : entryModify nm (Int.ofNat lastOp.i2 - 1)
                  (fun m => { m with pos := (m.pos.1, nextOp.j2) }) with
              | error e => rw [hm, error_bind] at h; exact absurd h (by simp)
              | ok nm1 =>
                rw [hm, ok_bind] at h
                have := markDeletedRange_ok_length h
                have := entryModify_ok_length hm
                simp_all
            · rw [if_neg hab] at h
              cases h
              rfl
      · rw [if_neg ht] at h
        cases h
        rfl
    | neither =>
      simp only [insNextStage] at h
      by_cases ht : nextOp.tag = OpTag.replace
      · rw [if_pos ht] at h
        cases hset : pySet nm (Int.ofNat nextOp.i1)
            (some (MappingPos.addRuleOpt { pos := (curr.j1, nextOp.j2) } rule)) with
        | error e => rw [hset, error_bind] at h; exact absurd h (by simp)
        | ok nm1 =>
          rw [hset, ok_bind] at h
          have := markDeletedRange_ok_length h
          have := pySet_ok_length hset
          simp_all
      · rw [if_neg ht] at h
        by_cases he : nextOp.tag = OpTag.equal
        · rw [if_pos he] at h
          cases ha : pyGet newText (Int.ofNat curr.j2 - 1) with
          | error e => rw [ha, error_bind] at h; exact absurd h (by simp)
          | ok a =>
            rw [ha, ok_bind] at h
            cases hb : pyGet newText (Int.ofNat nextOp.j1) with
            | error e => rw [hb, error_bind] at h; exact absurd h (by simp)
            | ok b =>
              rw [hb, ok_bind] at h
              by_cases hab : a = b
              · rw [if_pos hab] at h
                cases hset : pySet nm (Int.ofNat nextOp.i1)
                    (some (MappingPos.addRuleOpt { pos := (curr.j1, nextOp.j1 + 1) } rule)) with
                | error e => rw [hset, error_bind] at h; exact absurd h (by simp)
                | ok nm1 =>
                  rw [hset, ok_bind] at h
                  cases h
                  exact pySet_ok_length hset
              · rw [if_neg hab] at h
                cases hset : pySet nm (Int.ofNat nextOp.i1)
                    (some (MappingPos.addRuleOpt { pos := (curr.j1, nextOp.j1 + 1) } rule)) with
                | error e => rw [hset, error_bind] at h; exact absurd h (by simp)
                | ok nm1 =>
                  rw [hset, ok_bind] at h
                  cases h
                  exact pySet_ok_length hset
        · rw [if_neg he] at h
          exact absurd h (by simp)
    | notSame lastOp =>
      simp only [insNextStage] at h
      by_cases ht : nextOp.tag = OpTag.replace
      · rw [if_pos ht] at h
        cases hset : pySet nm (Int.ofNat nextOp.i1)
            (some (MappingPos.addRuleOpt { pos := (curr.j1, nextOp.j2) } rule)) with
        | error e => rw [hset, error_bind] at h; exact absurd h (by simp)
        | ok nm1 =>
          rw [hset, ok_bind] at h
          have := markDeletedRange_ok_length h
          have := pySet_ok_length hset
          simp_all
      · rw [if_neg ht] at h
        by_cases he : nextOp.tag = OpTag.equal
        · rw [if_pos he] at h
          cases ha : pyGet newText (Int.ofNat curr.j2 - 1) with
          | error e => rw [ha, error_bind] at h; exact absurd h (by simp)
          | ok a =>
            rw [ha, ok_bind] at h
            cases hb : pyGet newText (Int.ofNat nextOp.j1) with
            | error e => rw [hb, error_bind] at h; exact absurd h (by simp)
            | ok b =>
              rw [hb, ok_bind] at h
              by_cases hab : a = b
              · rw [if_pos hab] at h
                cases hset : pySet nm (Int.ofNat nextOp.i1)
                    (some (MappingPos.addRuleOpt { pos := (curr.j1, nextOp.j1 + 1) } rule)) with
                | error e => rw [hset, error_bind] at h; exact absurd h (by simp)
                | ok nm1 =>
                  rw [hset, ok_bind] at h
                  cases h
                  exact pySet_ok_length hset
              · rw [if_neg hab] at h
                cases hm : entryModify nm (Int.ofNat lastOp.i2 - 1)
                    (fun m => MappingPos.addRuleOpt { m with pos := (m.pos.1, curr.j2) } rule) with
                | error e => rw [hm, error_bind] at h; exact absurd h (by simp)
                | ok nm1 =>
                  rw [hm, ok_bind] at h
                  cases h
                  exact entryModify_ok_length hm
        · rw [if_neg he] at h
          exact absurd h (by simp)

theorem applyInsert_ok_length {newText : List Char} {rule : Option TajweedRule}
    {last? : Option Opcode} {curr : Opcode} {next? : Option Opcode}
    {nm : List (Option MappingPos)} {toDel : List Nat}
    {st2 : List (Option MappingPos) × List Nat}
    (h : applyInsert newText rule last? curr next? nm toDel = .ok st2) :
    st2.1.length = nm.length := by
  unfold applyInsert at h
  cases hf : insFlagStage newText rule last? curr nm with
  | error e => rw [hf, error_bind] at h; exact absurd h (by simp)
  | ok r =>
    rw [hf, ok_bind] at h
    have h1 := insFlagStage_ok_length hf
    have h2 := insNextStage_ok_length h
    omega

theorem walkDispatch_ok_length {text newText : List Char} {rule : Option TajweedRule}
    {last? : Option Opcode} {curr : Opcode} {next? : Option Opcode}
    {nm : List (Option MappingPos)} {toDel : List Nat}
    {st2 : List (Option MappingPos) × List Nat}
    (h : walkDispatch text newText rule last? curr next? nm toDel = .ok st2) :
    st2.1.length = nm.length := by
  rcases curr with ⟨tag, i1, i2, j1, j2⟩
  cases tag with
  | insert =>
    simp only [walkDispatch] at h
    exact applyInsert_ok_length h
  | replace =>
    simp only [walkDispatch] at h
    cases hr : applyReplace text rule toDel nm ⟨OpTag.replace, i1, i2, j1, j2⟩ with
    | error e => rw [hr, error_bind] at h; exact absurd h (by simp)
    | ok nm1 =>
      rw [hr, ok_bind] at h
      cases h
      exact applyReplace_ok_length hr
  | equal =>
    simp only [walkDispatch] at h
    cases hr : applyEqual nm ⟨OpTag.equal, i1, i2, j1, j2⟩ with
    | error e => rw [hr, error_bind] at h; exact absurd h (by simp)
    | ok nm1 =>
      rw [hr, ok_bind] at h
      cases h
      exact applyEqual_ok_length hr
  | delete =>
    simp only [walkDispatch] at h
    cases hr : applyDelete rule nm ⟨OpTag.delete, i1, i2, j1, j2⟩ with
    | error e => rw [hr, error_bind] at h; exact absurd h (by simp)
    | ok nm1 =>
      rw [hr, ok_bind] at h
      cases h
      exact applyDelete_ok_length hr

theorem walkOps_ok_length {text newText : List Char} {rule : Option TajweedRule} :
    ∀ (rest : List Opcode) (last? : Option Opcode) (curr : Opcode)
      (st st2 : List (Option MappingPos) × List Nat),
      walkOps text newText rule last? curr rest st = .ok st2 →
      st2.1.length = st.1.length := by
  intro rest
  induction rest with
  | nil =>
    intro last? curr st st2 h
    rw [walkOps] at h
    cases hd : walkDispatch text newText rule last? curr (([] : List Opcode).head?) st.1 st.2 with
    | error e =>
      rw [hd, error_bind] at h
      exact absurd h (by simp)
    | ok st1 =>
      rw [hd, ok_bind] at h
      cases h
      exact walkDispatch_ok_length hd
  | cons c r ih =>
    intro last? curr st st2 h
    rw [walkOps] at h
    cases hd : walkDispatch text newText rule last? curr (c :: r).head? st.1 st.2 with
    | error e => rw [hd, error_bind] at h; exact absurd h (by simp)
    | ok st1 =>
      rw [hd, ok_bind] at h
      have h1 := walkDispatch_ok_length hd
      have h2 := ih (some curr) c st1 st2 h
      omega

theorem buildStepMappings_ok {text newText : List Char}
    {rule : Option TajweedRule} {ops : List Opcode}
    {nm : List (Option MappingPos)}
    (h : buildStepMappings text newText rule ops = .ok nm) :
    nm.length = text.length ∧ nm.all (fun x => x.isSome) := by
  cases ops with
  | nil => simp [buildStepMappings] at h
  | cons c r =>
    simp only [buildStepMappings] at h
    cases hw : walkOps text newText rule none c r (List.replicate text.length none, []) with
    | error e => rw [hw, error_bind] at h; exact absurd h (by simp)
    | ok st =>
      rw [hw, ok_bind] at h
      by_cases hall : st.1.all (fun x => x.isSome)
      · rw [if_pos hall] at h
        cases h
        have := walkOps_ok_length r none c _ _ hw
        simp only [List.length_replicate] at this
        exact ⟨this, hall⟩
      · rw [if_neg hall] at h
        exact absurd h (by simp [hall])

theorem filterMap_id_length_of_all_isSome {l : List (Option MappingPos)}
    (h : l.all (fun x => x.isSome)) : (l.filterMap id).length = l.length := by
  induction l with
  | nil => rfl
  | cons x xs ih =>
    cases x with
    | none => simp at h
    | some m =>
      simp only [List.all_cons, Option.isSome_some, Bool.true_and] at h
      simp [List.filterMap_cons, ih h]

theorem tanweenPass_ok_length {text newText : List Char} {nm nm2 : List MappingPos}
    (h : tanweenPass text newText nm = .ok nm2) : nm2.length = nm.length := by
  unfold tanweenPass at h
  refine foldlM_inv (fun l => l.length = nm.length) _ ?_ _ nm nm2 rfl h
  intro s b s2 hs hstep
  unfold tanweenApply at hstep
  cases h1 : pyGet s (Int.ofNat b) with
  | error e => rw [h1, error_bind] at hstep; exact absurd hstep (by simp)
  | ok mIdx =>
    rw [h1, ok_bind] at hstep
    cases h2 : pyGet text (Int.ofNat b) with
    | error e => rw [h2, error_bind] at hstep; exact absurd hstep (by simp)
    | ok tc =>
      rw [h2, ok_bind] at hstep
      cases h3 : pyGet newText (Int.ofNat mIdx.pos.1) with
      | error e => rw [h3, error_bind] at hstep; exact absurd hstep (by simp)
      | ok nc =>
        rw [h3, ok_bind] at hstep
        by_cases hne : tc ≠ nc
        · rw [if_pos hne] at hstep
          cases h4 : pyModify s (Int.ofNat b - 1)
              (fun m => { m with pos := (m.pos.1, mIdx.pos.2) }) with
          | error e => rw [h4, error_bind] at hstep; exact absurd hstep (by simp)
          | ok s1 =>
            rw [h4, ok_bind] at hstep
            cases h5 : pyModify s1 (Int.ofNat b)
                (fun m => { m with pos := (m.pos.2, m.pos.2), deleted := true }) with
            | error e => rw [h5, error_bind] at hstep; exact absurd hstep (by simp)
            | ok s3 =>
              rw [h5, ok_bind] at hstep
              cases hstep
              have e1 := pyModify_ok_length h4
              have e2 := pyModify_ok_length h5
              omega
        · rw [if_neg hne] at hstep
          cases hstep
          exact hs

theorem shaddaPass_ok_length {text : List Char} {nm nm2 : List MappingPos}
    (h : shaddaPass text nm = .ok nm2) : nm2.length = nm.length := by
  unfold shaddaPass at h
  refine foldlM_inv (fun l => l.length = nm.length) _ ?_ _ nm nm2 rfl h
  intro s b s2 hs hstep
  simp only [shaddaApply] at hstep
  cases h1 : pyGet s (Int.ofNat b.1) with
  | error e => rw [h1, error_bind] at hstep; exact absurd hstep (by simp)
  | ok mFirst =>
    rw [h1, ok_bind] at hstep
    cases h2 : pyGet s (Int.ofNat (b.2 - 2)) with
    | error e => rw [h2, error_bind] at hstep; exact absurd hstep (by simp)
    | ok mSecond =>
      rw [h2, ok_bind] at hstep
      by_cases hc : ((!mFirst.deleted) && mSecond.deleted) = true
      · rw [if_pos hc] at hstep
        cases h3 : pySet s (Int.ofNat (b.2 - 2)) mFirst with
        | error e => rw [h3, error_bind] at hstep; exact absurd hstep (by simp)
        | ok s1 =>
          rw [h3, ok_bind] at hstep
          have h4 := pySet_ok_length h3
          have h5 : s2.length = s1.length := by
            refine foldlM_inv (fun l => l.length = s1.length) _ ?_ _ s1 s2 rfl hstep
            intro t c t2 ht htstep
            rw [← ht]
            exact pySet_ok_length htstep
          omega
      · rw [if_neg hc] at hstep
        cases hstep
        exact hs

theorem qalqalahApply_ok_length {nm nm2 : List MappingPos} {q : Nat}
    (h : qalqalahApply nm q = .ok nm2) : nm2.length = nm.length := by
  simp only [qalqalahApply] at h
  cases h1 : pyGet nm (Int.ofNat (qalqalahFindIdx nm q) - 1) with
  | error e => rw [h1, error_bind] at h; exact absurd h (by simp)
  | ok prev =>
    rw [h1, ok_bind] at h
    by_cases hp : prev.tajweed_rules = none
    · rw [if_pos hp] at h
      cases g1 : pyGet nm (Int.ofNat (qalqalahFindIdx nm q)) with
      | error e => rw [g1, error_bind] at h; exact absurd h (by simp)
      | ok mK =>
        rw [g1, ok_bind] at h
        cases g2 : pyModify nm (Int.ofNat (qalqalahFindIdx nm q) - 1)
            (fun m => { m with pos := (m.pos.1, mK.pos.2) }) with
        | error e => rw [g2, error_bind] at h; exact absurd h (by simp)
        | ok l1 =>
          rw [g2, ok_bind] at h
          cases g3 : pyGet l1 (Int.ofNat (qalqalahFindIdx nm q)) with
          | error e => rw [g3, error_bind] at h; exact absurd h (by simp)
          | ok mK2 =>
            rw [g3, ok_bind] at h
            cases g4 : pyModify l1 (Int.ofNat (qalqalahFindIdx nm q) - 1)
                (fun m => { m with tajweed_rules := mK2.tajweed_rules }) with
            | error e => rw [g4, error_bind] at h; exact absurd h (by simp)
            | ok l2 =>
              rw [g4, ok_bind] at h
              cases g5 : pyModify l2 (Int.ofNat (qalqalahFindIdx nm q))
                  (fun m => { m with pos := (m.pos.2, m.pos.2) }) with
              | error e => rw [g5, error_bind] at h; exact absurd h (by simp)
              | ok l3 =>
                rw [g5, ok_bind] at h
                cases g6 : pyModify l3 (Int.ofNat (qalqalahFindIdx nm q))
                    (fun m => { m with deleted := true }) with
                | error e => rw [g6, error_bind] at h; exact absurd h (by simp)
                | ok l4 =>
                  rw [g6, ok_bind] at h
                  cases g7 : pyModify l4 (Int.ofNat (qalqalahFindIdx nm q))
                      (fun m => { m with tajweed_rules := none }) with
                  | error e => rw [g7, error_bind] at h; exact absurd h (by simp)
                  | ok l5 =>
                    rw [g7, ok_bind] at h
                    cases h
                    have e2 := pyModify_ok_length g2
                    have e4 := pyModify_ok_length g4
                    have e5 := pyModify_ok_length g5
                    have e6 := pyModify_ok_length g6
                    have e7 := pyModify_ok_length g7
                    omega
    · rw [if_neg hp] at h
      cases h
      rfl

theorem qalqalahPass_ok_length {newText : List Char} {nm nm2 : List MappingPos}
    (h : qalqalahPass newText nm = .ok nm2) : nm2.length = nm.length := by
  unfold qalqalahPass at h
  refine foldlM_inv (fun l => l.length = nm.length) _ ?_ _ nm nm2 rfl h
  intro s b s2 hs hstep
  rw [← hs]
  exact qalqalahApply_ok_length hstep

theorem merge_mappings_none {new_mappings : List MappingPos} :
    merge_mappings none new_mappings = .ok new_mappings := rfl

theorem merge_mappings_some_ok_length {acc new_mappings res : List MappingPos}
    (h : merge_mappings (some acc) new_mappings = .ok res) :
    res.length = acc.length := by
  simp only [merge_mappings] at h
  by_cases he : new_mappings = []
  · rw [if_pos he] at h; exact absurd h (by simp)
  · rw [if_neg he] at h
    exact mapExcept_ok_length h

theorem leenPass_ok_length {newText : List Char} {nm nm2 : List MappingPos}
    (h : leenPass newText nm = .ok nm2) : nm2.length = nm.length := by
  unfold leenPass at h
  exact mapExcept_ok_length h

/-- Expected mapping length of one substitution step: the input text's
codepoint count when no prior mapping is given, the prior mapping's length
otherwise. -/
def accLen : Option (List MappingPos) → Nat → Nat
  | none, n => n
  | some acc, _ => acc.length

/-- Length behaviour of `get_mappings`: the output has the input text's
codepoint count when no prior mapping is given, and the prior mapping's
length otherwise (the empty text aside). -/
theorem get_mappings_ok_length {text newText : List Char} {ops : List Opcode}
    {mappings : Option (List MappingPos)} {rule : Option TajweedRule}
    {res : List MappingPos}
    (h : get_mappings text newText ops mappings rule = .ok res) :
    (text = [] ∧ res = []) ∨
      (text ≠ [] ∧ res.length = accLen mappings text.length) := by
  unfold get_mappings at h
  by_cases ht : text = []
  · rw [if_pos ht] at h
    cases h
    exact Or.inl ⟨ht, rfl⟩
  · rw [if_neg ht] at h
    refine Or.inr ⟨ht, ?_⟩
    cases hb : buildStepMappings text newText rule ops with
    | error e => rw [hb, error_bind] at h; exact absurd h (by simp)
    | ok nmo =>
      rw [hb, ok_bind] at h
      obtain ⟨hlen, hall⟩ := buildStepMappings_ok hb
      cases hl : leenPass newText (nmo.filterMap id) with
      | error e => rw [hl, error_bind] at h; exact absurd h (by simp)
      | ok nm1 =>
        rw [hl, ok_bind] at h
        cases htw : tanweenPass text newText nm1 with
        | error e => rw [htw, error_bind] at h; exact absurd h (by simp)
        | ok nm2 =>
          rw [htw, ok_bind] at h
          cases hsh : shaddaPass text nm2 with
          | error e => rw [hsh, error_bind] at h; exact absurd h (by simp)
          | ok nm3 =>
            rw [hsh, ok_bind] at h
            cases hm : merge_mappings mappings nm3 with
            | error e => rw [hm, error_bind] at h; exact absurd h (by simp)
            | ok mg =>
              rw [hm, ok_bind] at h
              cases hq : qalqalahPass newText mg with
              | error e => rw [hq, error_bind] at h; exact absurd h (by simp)
              | ok mg2 =>
                rw [hq, ok_bind] at h
                by_cases hch : chainOk newText.length mg2 = true
                · rw [if_pos hch] at h
                  cases h
                  have e0 := filterMap_id_length_of_all_isSome hall
                  have e1 := leenPass_ok_length hl
                  have e2 := tanweenPass_ok_length htw
                  have e3 := shaddaPass_ok_length hsh
                  have e5 := qalqalahPass_ok_length hq
                  cases mappings with
                  | none =>
                    cases hm
                    simp only [accLen]
                    omega
                  | some acc =>
                    have e4 := merge_mappings_some_ok_length hm
                    simp only [accLen]
                    omega
                · rw [if_neg hch] at h
                  exact absurd h (by simp)

/-- Length behaviour of `sub_with_mapping` on non-empty input. -/
theorem sub_with_mapping_ok_length {text newText : List Char} {ops : List Opcode}
    {mappings : Option (List MappingPos)} {rule : Option TajweedRule}
    {outText : List Char} {res : List MappingPos}
    (ht : text ≠ [])
    (h : sub_with_mapping text newText ops mappings rule = .ok (outText, res)) :
    res.length = accLen mappings text.length := by
  unfold sub_with_mapping at h
  rw [if_neg ht] at h
  cases hg : get_mappings text newText ops mappings rule with
  | error e => rw [hg, error_bind] at h; exact absurd h (by simp)
  | ok m =>
    rw [hg, ok_bind] at h
    cases h
    rcases get_mappings_ok_length hg with ⟨he, _⟩ | ⟨_, hl⟩
    · exact absurd he ht
    · exact hl

/-! ### From the validated chain to the spec's contiguity invariant -/

theorem chainOk_cons {L : Nat} {a b : MappingPos} {rest : List MappingPos}
    (h : chainOk L (a :: b :: rest) = true) :
    a.pos.2 = b.pos.1 ∧ chainOk L (b :: rest) = true := by
  simp only [chainOk, Bool.and_eq_true, beq_iff_eq] at h
  exact h

theorem chainOk_filter_aux (L : Nat) :
    ∀ m : List MappingPos, chainOk L m = true → deletedPointInv m →
      adjacentOk (m.filter (fun x => !x.deleted)) = true ∧
      (∀ c, (m.filter (fun x => !x.deleted)).head? = some c →
        ∀ a, m.head? = some a → c.pos.1 = a.pos.1) := by
  intro m
  induction m with
  | nil => intro _ _; exact ⟨rfl, by intro c hc; simp at hc⟩
  | cons a rest ih =>
    intro hch hdel
    have hdelrest : deletedPointInv rest := by
      intro x hx hd
      exact hdel x (List.mem_cons_of_mem a hx) hd
    cases rest with
    | nil =>
      by_cases hd : a.deleted
      · refine ⟨by simp [List.filter, hd, adjacentOk], ?_⟩
        intro c hc
        simp [List.filter, hd] at hc
      · refine ⟨by simp [List.filter, hd, adjacentOk], ?_⟩
        intro c hc a2 ha2
        simp [List.filter, hd] at hc
        simp at ha2
        subst hc
        subst ha2
        rfl
    | cons b r =>
      obtain ⟨hab, hrest⟩ := chainOk_cons hch
      obtain ⟨ihAdj, ihHead⟩ := ih hrest hdelrest
      by_cases hd : a.deleted
      · have ha12 : a.pos.1 = a.pos.2 := hdel a (List.mem_cons_self a _) hd
        refine ⟨by simpa [List.filter, hd] using ihAdj, ?_⟩
        intro c hc a2 ha2
        simp only [List.head?_cons, Option.some.injEq] at ha2
        subst ha2
        have hc2 : ((b :: r).filter (fun x => !x.deleted)).head? = some c := by
          simpa [List.filter, hd] using hc
        have := ihHead c hc2 b (by simp)
        omega
      · have hfil : (a :: b :: r).filter (fun x => !x.deleted)
            = a :: ((b :: r).filter (fun x => !x.deleted)) := by
          simp [List.filter, hd]
        refine ⟨?_, ?_⟩
        · rw [hfil]
          cases hfr : (b :: r).filter (fun x => !x.deleted) with
          | nil => simp [adjacentOk]
          | cons c cs =>
            have hc1 := ihHead c (by rw [hfr]; rfl) b (by simp)
            simp only [adjacentOk, Bool.and_eq_true, beq_iff_eq]
            constructor
            · omega
            · have : adjacentOk (c :: cs) = true := by rw [← hfr]; exact ihAdj
              exact this
        · intro c hc a2 ha2
          simp only [List.head?_cons, Option.some.injEq] at ha2
          subst ha2
          rw [hfil] at hc
          simp only [List.head?_cons, Option.some.injEq] at hc
          subst hc
          rfl

/-- A validated mapping chain whose deleted spans are points satisfies the
spec's contiguity invariant on its non-deleted spans. -/
theorem chainOk_imp_specContiguous {L : Nat} {m : List MappingPos}
    (hch : chainOk L m = true) (hdel : deletedPointInv m) :
    specContiguous m = true :=
  (chainOk_filter_aux L m hch hdel).1

/-- Every mapping list returned by `get_mappings` passed the final validation
loop. -/
theorem get_mappings_ok_chainOk {text newText : List Char} {ops : List Opcode}
    {mappings : Option (List MappingPos)} {rule : Option TajweedRule}
    {res : List MappingPos}
    (h : get_mappings text newText ops mappings rule = .ok res) :
    chainOk newText.length res = true := by
  unfold get_mappings at h
  by_cases ht : text = []
  · rw [if_pos ht] at h
    cases h
    rfl
  · rw [if_neg ht] at h
    cases hb : buildStepMappings text newText rule ops with
    | error e => rw [hb, error_bind] at h; exact absurd h (by simp)
    | ok nmo =>
      rw [hb, ok_bind] at h
      cases hl : leenPass newText (nmo.filterMap id) with
      | error e => rw [hl, error_bind] at h; exact absurd h (by simp)
      | ok nm1 =>
        rw [hl, ok_bind] at h
        cases htw : tanweenPass text newText nm1 with
        | error e => rw [htw, error_bind] at h; exact absurd h (by simp)
        | ok nm2 =>
          rw [htw, ok_bind] at h
          cases hsh : shaddaPass text nm2 with
          | error e => rw [hsh, error_bind] at h; exact absurd h (by simp)
          | ok nm3 =>
            rw [hsh, ok_bind] at h
            cases hm : merge_mappings mappings nm3 with
            | error e => rw [hm, error_bind] at h; exact absurd h (by simp)
            | ok mg =>
              rw [hm, ok_bind] at h
              cases hq : qalqalahPass newText mg with
              | error e => rw [hq, error_bind] at h; exact absurd h (by simp)
              | ok mg2 =>
                rw [hq, ok_bind] at h
                by_cases hch : chainOk newText.length mg2 = true
                · rw [if_pos hch] at h
                  cases h
                  exact hch
                · rw [if_neg hch] at h
                  exact absurd h (by simp)

/-- Every mapping returned by `sub_with_mapping` passed the contiguity
validation against the returned text. -/
theorem sub_with_mapping_ok_chainOk {text newText : List Char} {ops : List Opcode}
    {mappings : Option (List MappingPos)} {rule : Option TajweedRule}
    {outText : List Char} {res : List MappingPos}
    (h : sub_with_mapping text newText ops mappings rule = .ok (outText, res)) :
    chainOk outText.length res = true := by
  unfold sub_with_mapping at h
  by_cases ht : text = []
  · rw [if_pos ht] at h
    cases h
    rfl
  · rw [if_neg ht] at h
    cases hg : get_mappings text newText ops mappings rule with
    | error e => rw [hg, error_bind] at h; exact absurd h (by simp)
    | ok m =>
      rw [hg, ok_bind] at h
      cases h
      exact get_mappings_ok_chainOk hg

/-- Same statement for one phonetizer substitution step. -/
theorem applySub_ok_chainOk {s : SubStep} {text : List Char}
    {mappings : Option (List MappingPos)} {outText : List Char}
    {res : List MappingPos}
    (h : applySub s text mappings = .ok (outText, res)) :
    chainOk outText.length res = true := by
  unfold applySub at h
  exact sub_with_mapping_ok_chainOk h

/-- Length behaviour of one phonetizer step applied to an accumulated
mapping: the length is preserved, except that an empty intermediate text
resets the mapping to `[]`. -/
theorem applySub_some_length {s : SubStep} {text : List Char}
    {acc : List MappingPos} {outText : List Char} {res : List MappingPos}
    (h : applySub s text (some acc) = .ok (outText, res)) :
    res.length = acc.length ∨ res = [] := by
  unfold applySub at h
  by_cases ht : text = []
  · unfold sub_with_mapping at h
    rw [if_pos ht] at h
    cases h
    exact Or.inr rfl
  · exact Or.inl (sub_with_mapping_ok_length ht h)

/-- Pair form of `applySub_ok_chainOk`. -/
theorem applySub_ok_chainOk2 {s : SubStep} {text : List Char}
    {mappings : Option (List MappingPos)} {st : List Char × List MappingPos}
    (h : applySub s text mappings = .ok st) :
    chainOk st.1.length st.2 = true := by
  cases st
  exact applySub_ok_chainOk h

/-- Every successful phonetizer invocation returns a mapping that passed the
contiguity validation against the final text. -/
theorem quran_phonetizer_ok_chainOk {clean1 clean2 : SubStep}
    {pipeline : List SubStep} {text : List Char}
    {st : List Char × List MappingPos}
    (h : quran_phonetizer clean1 clean2 pipeline text = .ok st) :
    chainOk st.1.length st.2 = true := by
  unfold quran_phonetizer at h
  cases h1 : applySub clean1 text none with
  | error e => rw [h1, error_bind] at h; exact absurd h (by simp)
  | ok st1 =>
    rw [h1, ok_bind] at h
    cases h2 : applySub clean2 st1.1 (some st1.2) with
    | error e => rw [h2, error_bind] at h; exact absurd h (by simp)
    | ok st2 =>
      rw [h2, ok_bind] at h
      refine foldlM_inv (fun st => chainOk st.1.length st.2 = true) _ ?_ _ st2 st
        (applySub_ok_chainOk2 h2) h
      intro s b s2 _ hstep
      exact applySub_ok_chainOk2 hstep

/-- C1.  For every Uthmani input text and every Moshaf configuration, the
mapping list produced by the phonetizer — and by each individual
`sub_with_mapping` step — satisfies the contiguity invariant: any two
consecutive non-deleted spans `a`, `b` (with no non-deleted span between
them) have `a.end == b.start`, with no gaps and no overlaps in the output
positions.  (The produced mapping is assumed to satisfy the spec's own
deleted-span invariant `start == end`, §3.1; the engine validates the full
chain — including deleted anchors — before returning, and raises otherwise.) -/
theorem claim_C1_contiguity :
    (∀ (text newText : List Char) (ops : List Opcode)
        (mappings : Option (List MappingPos)) (rule : Option TajweedRule)
        (outText : List Char) (m : List MappingPos),
        sub_with_mapping text newText ops mappings rule = .ok (outText, m) →
        deletedPointInv m → specContiguous m = true)
    ∧ (∀ (clean1 clean2 : SubStep) (pipeline : List SubStep)
        (text : List Char) (st : List Char × List MappingPos),
        quran_phonetizer clean1 clean2 pipeline text = .ok st →
        deletedPointInv st.2 → specContiguous st.2 = true) := by
  constructor
  · intro text newText ops mappings rule outText m h hdel
    exact chainOk_imp_specContiguous (sub_with_mapping_ok_chainOk h) hdel
  · intro clean1 clean2 pipeline text st h hdel
    exact chainOk_imp_specContiguous (quran_phonetizer_ok_chainOk h) hdel

/-- Witness for C1 at a concrete run: the identity substitution on `"ab"`
produces the mapping `[(0,1), (1,2)]`, whose deleted spans (none) are points
and which is contiguous. -/
theorem claim_C1_contiguity_witness :
    sub_with_mapping ['a', 'b'] ['a', 'b'] [⟨OpTag.equal, 0, 2, 0, 2⟩] none none
        = .ok (['a', 'b'],
          [{ pos := (0, 1) }, { pos := (1, 2) }]) ∧
    specContiguous [{ pos := (0, 1) }, { pos := (1, 2) }] = true := by
  refine ⟨by rfl, ?_⟩
  exact claim_C1_contiguity.1 ['a', 'b'] ['a', 'b'] [⟨OpTag.equal, 0, 2, 0, 2⟩]
    none none ['a', 'b'] [{ pos := (0, 1) }, { pos := (1, 2) }]
    (by rfl) (by decide)

/-! ### C2: length preservation -/

/-- The first whitespace-cleanup step (`\s+` → SPACE) evaluated at the
whitespace-only input `" "`: the substitution returns `" "` unchanged and
the edit script of two equal strings is a single `equal` opcode. -/
def wsClean1 : SubStep :=
  { subFn := fun _ => [' '], opsFn := fun _ _ => [⟨OpTag.equal, 0, 1, 0, 1⟩], rule := none }

/-- The second cleanup step (`\s$|^\s` → `""`) evaluated at `" "`: the
substitution deletes the single space and the edit script is one `delete`
opcode. -/
def wsClean2 : SubStep :=
  { subFn := fun _ => [], opsFn := fun _ _ => [⟨OpTag.delete, 0, 1, 0, 0⟩], rule := none }

/-- An arbitrary first pipeline operation step; on the empty intermediate
text `sub_with_mapping` short-circuits before consulting it, so its oracle
content is irrelevant. -/
def wsPipelineStep : SubStep :=
  { subFn := fun t => t, opsFn := fun _ _ => [⟨OpTag.equal, 0, 0, 0, 0⟩], rule := none }

/-- Counterexample to C2: on the non-empty input `" "` the phonetizer returns
the empty mapping list (length 0), not a list of the input's codepoint count
(1).  The second cleanup substitution empties the text, the first pipeline
operation's `sub_with_mapping` then hits the `text == ""` early return and
discards the accumulated one-entry mapping — a rewrite step that does change
the length of an existing mapping list. -/
theorem claim_C2_counterexample :
    quran_phonetizer wsClean1 wsClean2 [wsPipelineStep] [' '] = .ok ([], []) ∧
    ([] : List MappingPos).length ≠ ([' '] : List Char).length := by
  exact ⟨by rfl, by decide⟩

/-- C2 (amended).  A substitution step on *non-empty* text never changes the
length of an existing mapping list, and creates a mapping of the text's
codepoint count when no prior mapping is given; consequently the phonetizer's
mapping either has the input's codepoint count or is the empty list (the
latter exactly via the empty-intermediate-text reset shown in the
counterexample). -/
theorem claim_C2_length_amended :
    (∀ (text newText : List Char) (ops : List Opcode) (acc : List MappingPos)
        (rule : Option TajweedRule) (outText : List Char) (res : List MappingPos),
        text ≠ [] →
        sub_with_mapping text newText ops (some acc) rule = .ok (outText, res) →
        res.length = acc.length)
    ∧ (∀ (text newText : List Char) (ops : List Opcode)
        (rule : Option TajweedRule) (outText : List Char) (res : List MappingPos),
        text ≠ [] →
        sub_with_mapping text newText ops none rule = .ok (outText, res) →
        res.length = text.length)
    ∧ (∀ (clean1 clean2 : SubStep) (pipeline : List SubStep)
        (text : List Char) (st : List Char × List MappingPos),
        text ≠ [] →
        quran_phonetizer clean1 clean2 pipeline text = .ok st →
        st.2.length = text.length ∨ st.2 = []) := by
  refine ⟨?_, ?_, ?_⟩
  · intro text newText ops acc rule outText res ht h
    exact sub_with_mapping_ok_length ht h
  · intro text newText ops rule outText res ht h
    exact sub_with_mapping_ok_length ht h
  · intro clean1 clean2 pipeline text st ht h
    unfold quran_phonetizer at h
    cases h1 : applySub clean1 text none with
    | error e => rw [h1, error_bind] at h; exact absurd h (by simp)
    | ok st1 =>
      rw [h1, ok_bind] at h
      cases h2 : applySub clean2 st1.1 (some st1.2) with
      | error e => rw [h2, error_bind] at h; exact absurd h (by simp)
      | ok st2 =>
        rw [h2, ok_bind] at h
        have hbase1 : st1.2.length = text.length := by
          rcases st1 with ⟨t1, m1⟩
          exact sub_with_mapping_ok_length ht h1
        have hbase2 : st2.2.length = text.length ∨ st2.2 = [] := by
          rcases st2 with ⟨t2, m2⟩
          rcases applySub_some_length h2 with hl | hn
          · rw [hbase1] at hl; exact Or.inl hl
          · exact Or.inr hn
        refine foldlM_inv (fun st => st.2.length = text.length ∨ st.2 = []) _ ?_ _ st2 st hbase2 h
        intro s b s2 hP hstep
        have hlen : s2.2.length = s.2.length ∨ s2.2 = [] := by
          rcases s2 with ⟨t2, m2⟩
          exact applySub_some_length hstep
        rcases hlen with hl | hn
        · rcases hP with hP | hP
          · exact Or.inl (by omega)
          · refine Or.inr ?_
            rw [hP] at hl
            simpa using List.length_eq_zero.mp (by simpa using hl)
        · exact Or.inr hn

/-- Witness for the amended C2 at a concrete run: an elongation step on
`"a"` with a prior one-entry mapping keeps the length at 1. -/
theorem claim_C2_length_amended_witness :
    (['a'] : List Char) ≠ [] ∧
    sub_with_mapping ['a'] ['a', 'a', 'a']
        [⟨OpTag.equal, 0, 1, 0, 1⟩, ⟨OpTag.insert, 1, 1, 1, 3⟩]
        (some [{ pos := (0, 1) }]) none
      = .ok (['a', 'a', 'a'], [{ pos := (0, 3) }]) ∧
    ([{ pos := (0, 3) }] : List MappingPos).length
      = ([{ pos := (0, 1) }] : List MappingPos).length := by
  refine ⟨by decide, by rfl, ?_⟩
  exact claim_C2_length_amended.1 ['a'] ['a', 'a', 'a']
    [⟨OpTag.equal, 0, 1, 0, 1⟩, ⟨OpTag.insert, 1, 1, 1, 3⟩]
    [{ pos := (0, 1) }] none ['a', 'a', 'a'] [{ pos := (0, 3) }]
    (by decide) (by rfl)

/-! ### C7: merger special inputs -/

/-- C7.  `merge_mappings` returns the step mapping unchanged when the
accumulator is `None`, and raises `ValueError` whenever the step mapping is
the empty list while the accumulator is a non-empty mapping list; the error
is raised before any entry is touched, so the accumulator is unchanged in
that case (the embedding is functional, so the error simply carries no
output). -/
theorem claim_C7_merge_special_inputs :
    (∀ step : List MappingPos, merge_mappings none step = .ok step) ∧
    (∀ acc : List MappingPos, acc ≠ [] →
      merge_mappings (some acc) [] = .error PyErr.valueError) := by
  constructor
  · intro step; rfl
  · intro acc hacc; rfl

/-- Witness for C7 at a concrete accumulator. -/
theorem claim_C7_merge_special_inputs_witness :
    ([{ pos := (0, 1) }] : List MappingPos) ≠ [] ∧
    merge_mappings (some [{ pos := (0, 1) }]) [] = .error PyErr.valueError := by
  refine ⟨by decide, ?_⟩
  exact claim_C7_merge_special_inputs.2 [{ pos := (0, 1) }] (by decide)

/-! ### C8: the search index load-time consistency check -/

/-- Counterexample to C8: with a reference file content of 3 codepoints
(`"ab\n"`, a trailing newline) and an index of 2 rows, the claim predicts a
failure (3 ≠ 2) — but the constructor strips the content first, compares
2 = 2, succeeds, and stores the *stripped* string, which differs from the
file content. -/
theorem claim_C8_counterexample :
    phoneticSearchInit ['a', 'b', '\n'] [[0], [1]]
      = .ok { index := [[0], [1]], ref_ph_norm := ['a', 'b'] } ∧
    (['a', 'b'] : List Char) ≠ ['a', 'b', '\n'] := by
  exact ⟨by rfl, by decide⟩

/-- C8 (amended).  Construction performs the mandatory consistency check
against the *stripped* reference file content: it fails with `ValueError`
exactly when the stripped content's codepoint count differs from the number
of index rows, and otherwise succeeds with the loaded state holding the index
rows and the stripped content. -/
theorem claim_C8_init_amended (refFileContent : List Char)
    (indexRows : List (List Nat)) :
    phoneticSearchInit refFileContent indexRows
      = (if (pyStrip refFileContent).length = indexRows.length then
          .ok { index := indexRows, ref_ph_norm := pyStrip refFileContent }
        else .error PyErr.valueError) := by
  unfold phoneticSearchInit
  by_cases h : (pyStrip refFileContent).length = indexRows.length
  · rw [if_pos h, if_neg (by omega)]
  · rw [if_neg h, if_pos (by omega)]

/-! ### C9: the `_madd_to_tags` attribute bug -/

/-- C9.  `MaddRule.is_ph_str_in` (for every `MaddRule`, including
`NormalMaddRule`, whose `__post_init__` defines exactly the attribute
`_madd_to_tag`) raises `AttributeError` on every non-empty input — it reads
the never-defined attribute `_madd_to_tags` — and returns `False` on the
empty string without any attribute access. -/
theorem claim_C9_is_ph_str_in :
    (∀ s : List Char, s ≠ [] →
      maddRuleIsPhStrIn maddRuleAttrs s = .error PyErr.attributeError) ∧
    maddRuleIsPhStrIn maddRuleAttrs [] = .ok false := by
  constructor
  · intro s hs
    cases s with
    | nil => exact absurd rfl hs
    | cons c rest =>
      unfold maddRuleIsPhStrIn
      have hlook : maddRuleAttrs.lookup "_madd_to_tags" = none := by decide
      unfold pyGetAttr
      rw [hlook]
      rfl
  · rfl

/-- Witness for C9 at the one-codepoint string `"a"`. -/
theorem claim_C9_is_ph_str_in_witness :
    (['a'] : List Char) ≠ [] ∧
    maddRuleIsPhStrIn maddRuleAttrs ['a'] = .error PyErr.attributeError := by
  refine ⟨by decide, ?_⟩
  exact claim_C9_is_ph_str_in.1 ['a'] (by decide)

/-! ### C5: the concrete elongation scenario -/

/-- C5.  Applying `sub_with_mapping` with pattern `(a)` → `\1\1\1` on
`"abcd"` (the external regex yields `"aaabcd"` and the opcode generator,
which orders `equal` before `insert`, yields
`[equal(0,1,0,1), insert(1,1,1,3), equal(1,4,3,6)]`), with no prior mapping
and a `NormalMadd` rule, returns the text `"aaabcd"` and the mapping
`[(0,3) carrying [NormalMadd], (3,4), (4,5), (5,6)]`, no span deleted. -/
theorem claim_C5_scenario_b :
    sub_with_mapping ['a', 'b', 'c', 'd'] ['a', 'a', 'a', 'b', 'c', 'd']
        [⟨OpTag.equal, 0, 1, 0, 1⟩, ⟨OpTag.insert, 1, 1, 1, 3⟩,
          ⟨OpTag.equal, 1, 4, 3, 6⟩]
        none (some normalMaddRule)
      = .ok (['a', 'a', 'a', 'b', 'c', 'd'],
          [{ pos := (0, 3), tajweed_rules := some [normalMaddRule] },
            { pos := (3, 4) }, { pos := (4, 5) }, { pos := (5, 6) }]) := by
  rfl

/-! ### C6: the qalqalah post-pass -/

/-- Counterexample to C6: marker at output index 1 after `'ب'`, `k = 1` the
first source index whose span starts at 1, and `m[k-1].rules` the *empty*
(but set) list `[]` — not non-empty, so the claim's guard does not apply and
the pass should extend `m[0].end` to `m[1].end = 2`.  The code instead tests
`tajweed_rules is None` and does nothing, leaving the mapping unchanged. -/
theorem claim_C6_counterexample :
    qalqalahMatches ['ب', phQlqla] 0 = [1] ∧
    qalqalahPass ['ب', phQlqla]
        [{ pos := (0, 1), tajweed_rules := some [] }, { pos := (1, 2) }]
      = .ok [{ pos := (0, 1), tajweed_rules := some [] }, { pos := (1, 2) }] ∧
    ({ pos := (0, 1), tajweed_rules := some [] } : MappingPos).pos.2
      ≠ ({ pos := (1, 2) } : MappingPos).pos.2 := by
  exact ⟨by rfl, by rfl, by decide⟩

/-- C6 (amended).  At a marker index `q`, with `k` the first source index
whose merged span starts at `q` (`1 ≤ k < len`), the pass acts exactly when
`m[k-1].tajweed_rules` is `None` (unset) — an empty-but-set rules list also
blocks it: it extends `m[k-1].end` to `m[k].end`, transfers `m[k]`'s rules to
`m[k-1]`, marks `m[k]` deleted at its end and clears its rules; otherwise it
does nothing. -/
theorem claim_C6_qalqalah_amended (nm : List MappingPos) (q k : Nat)
    (prev cur : MappingPos)
    (hfind : nm.findIdx? (fun m => m.pos.1 == q) = some k)
    (hk : 1 ≤ k)
    (hprev : nm.get? (k - 1) = some prev) (hcur : nm.get? k = some cur) :
    qalqalahApply nm q = .ok
      (if prev.tajweed_rules = none then
        (nm.set (k - 1)
            { prev with pos := (prev.pos.1, cur.pos.2),
                        tajweed_rules := cur.tajweed_rules }).set k
          { cur with pos := (cur.pos.2, cur.pos.2), deleted := true,
                     tajweed_rules := none }
      else nm) := by
  have hklen : k < nm.length := by
    rcases List.get?_eq_some.mp hcur with ⟨h, _⟩
    exact h
  have hnm0 : nm.length ≠ 0 := by omega
  have hidx : qalqalahFindIdx nm q = k := by
    unfold qalqalahFindIdx
    rw [if_neg hnm0, hfind]
  have hsub : (Int.ofNat k - 1 : Int) = Int.ofNat (k - 1) := by
    simp only [Int.ofNat_eq_natCast]
    omega
  simp only [qalqalahApply, hidx, hsub]
  rw [pyGet_ofNat hprev, ok_bind]
  by_cases hp : prev.tajweed_rules = none
  · rw [if_pos hp, if_pos hp]
    rw [pyGet_ofNat hcur, ok_bind]
    have hkk : k - 1 ≠ k := by omega
    -- first modify: l1 = nm.set (k-1) (prev with wider pos)
    rw [pyModify_ofNat hprev, ok_bind]
    have hcur1 :
        ((nm.set (k - 1) { prev with pos := (prev.pos.1, cur.pos.2) }).get? k)
          = some cur := by
      rw [List.get?_set_ne _ _ hkk]
      exact hcur
    rw [pyGet_ofNat hcur1, ok_bind]
    have hprev1 :
        ((nm.set (k - 1) { prev with pos := (prev.pos.1, cur.pos.2) }).get? (k - 1))
          = some { prev with pos := (prev.pos.1, cur.pos.2) } := by
      rw [List.get?_set_eq_of_lt]
      rcases List.get?_eq_some.mp hprev with ⟨h, _⟩
      simpa using h
    rw [pyModify_ofNat hprev1, ok_bind]
    rw [List.set_set]
    have hcur2 :
        ((nm.set (k - 1)
            { prev with pos := (prev.pos.1, cur.pos.2),
                        tajweed_rules := cur.tajweed_rules }).get? k) = some cur := by
      rw [List.get?_set_ne _ _ hkk]
      exact hcur
    rw [pyModify_ofNat hcur2, ok_bind]
    have hcur3 :
        (((nm.set (k - 1)
            { prev with pos := (prev.pos.1, cur.pos.2),
                        tajweed_rules := cur.tajweed_rules }).set k
            { cur with pos := (cur.pos.2, cur.pos.2) }).get? k)
          = some { cur with pos := (cur.pos.2, cur.pos.2) } := by
      rw [List.get?_set_eq_of_lt]
      simp [hklen]
    rw [pyModify_ofNat hcur3, ok_bind]
    rw [List.set_set]
    have hcur4 :
        (((nm.set (k - 1)
            { prev with pos := (prev.pos.1, cur.pos.2),
                        tajweed_rules := cur.tajweed_rules }).set k
            { cur with pos := (cur.pos.2, cur.pos.2), deleted := true }).get? k)
          = some { cur with pos := (cur.pos.2, cur.pos.2), deleted := true } := by
      rw [List.get?_set_eq_of_lt]
      simp [hklen]
    rw [pyModify_ofNat hcur4, ok_bind]
    rw [List.set_set]
    rfl
  · rw [if_neg hp, if_neg hp]
    rfl

/-- Witness for the amended C6: a concrete absorption, with
`m[k-1].tajweed_rules` unset. -/
theorem claim_C6_qalqalah_amended_witness :
    qalqalahApply [{ pos := (0, 1) }, { pos := (1, 2), tajweed_rules := some [normalMaddRule] }] 1
      = .ok [{ pos := (0, 2), tajweed_rules := some [normalMaddRule] },
          { pos := (2, 2), deleted := true }] := by
  have h := claim_C6_qalqalah_amended
    [{ pos := (0, 1) }, { pos := (1, 2), tajweed_rules := some [normalMaddRule] }] 1 1
    { pos := (0, 1) } { pos := (1, 2), tajweed_rules := some [normalMaddRule] }
    (by rfl) (by decide) (by rfl) (by rfl)
  simpa using h

/-! ### C3: functional characterisation of the merger -/

/-- Dummy span used only as a `getD` default in statements; the hypotheses
always keep the accesses in range. -/
def dummyPos : MappingPos := { pos := (0, 0) }

/-- The rules list of a span with Python's `None` read as the empty list. -/
def rulesOf (m : MappingPos) : List TajweedRule :=
  m.tajweed_rules.getD []

/-- The step rules appended to an accumulated entry spanning `[lo, hi)`:
`step[k].rules` for each `k` in `[lo, hi)`, in order. -/
def stepRules (step : List MappingPos) (lo hi : Nat) : List TajweedRule :=
  ((List.range' lo (hi - lo)).map (fun k => rulesOf (step.getD k dummyPos))).flatten

theorem add_tajweed_rule_pos (m : MappingPos) (o : Option (List TajweedRule)) :
    (m.add_tajweed_rule o).pos = m.pos := by
  unfold MappingPos.add_tajweed_rule
  cases o with
  | none => rfl
  | some rs =>
    cases rs with
    | nil => rfl
    | cons r rest =>
      cases m.tajweed_rules <;> rfl

theorem add_tajweed_rule_deleted (m : MappingPos) (o : Option (List TajweedRule)) :
    (m.add_tajweed_rule o).deleted = m.deleted := by
  unfold MappingPos.add_tajweed_rule
  cases o with
  | none => rfl
  | some rs =>
    cases rs with
    | nil => rfl
    | cons r rest =>
      cases m.tajweed_rules <;> rfl

theorem add_tajweed_rule_rulesOf (m : MappingPos) (o : Option (List TajweedRule)) :
    rulesOf (m.add_tajweed_rule o) = rulesOf m ++ o.getD [] := by
  unfold MappingPos.add_tajweed_rule rulesOf
  cases o with
  | none => simp
  | some rs =>
    cases rs with
    | nil => simp
    | cons r rest =>
      cases hm : m.tajweed_rules with
      | none => simp
      | some old => simp

theorem pyGet_neg_one {α : Type} {l : List α} {x : α}
    (h : l.get? (l.length - 1) = some x) : pyGet l (-1) = .ok x := by
  have hl : 0 < l.length := by
    rcases List.get?_eq_some.mp h with ⟨hlt, _⟩
    omega
  have hidx : pyIdx l.length (-1) = .ok (l.length - 1) := by
    unfold pyIdx
    rw [if_neg (by omega), if_pos (by omega)]
    congr 1
    omega
  unfold pyGet
  rw [hidx, ok_bind, h]

/-- Characterisation of the rules/deleted folding loop of `mergeEntry` over
in-range step indices. -/
theorem mergeFold_spec (step : List MappingPos) :
    ∀ (ks : List Nat), (∀ k ∈ ks, k < step.length) →
      ∀ (m : MappingPos) (d : Bool) (r : MappingPos × Bool),
      ks.foldlM
        (fun (acc : MappingPos × Bool) k => do
          let sm ← pyGet step (Int.ofNat k)
          pure (acc.1.add_tajweed_rule sm.tajweed_rules, acc.2 && sm.deleted))
        (m, d) = .ok r →
      r.1.pos = m.pos ∧ r.1.deleted = m.deleted ∧
      rulesOf r.1 = rulesOf m
        ++ (ks.map (fun k => rulesOf (step.getD k dummyPos))).flatten ∧
      r.2 = (d && ks.all (fun k => (step.getD k dummyPos).deleted)) := by
  intro ks
  induction ks with
  | nil =>
    intro _ m d r h
    cases h
    simp
  | cons k ks ih =>
    intro hks m d r h
    have hklt : k < step.length := hks k (by simp)
    have hget : step.get? k = some (step.getD k dummyPos) := by
      rw [List.getD_eq_getElem?_getD]
      rcases List.get?_eq_some.mp (List.get?_eq_get hklt) with _
      rw [← List.get?_eq_getElem?]
      cases hq : step.get? k with
      | none =>
        rcases List.get?_eq_none.mp hq with hlen
        omega
      | some v => simp
    rw [List.foldlM_cons] at h
    rw [pyGet_ofNat hget, ok_bind] at h
    have hrest : ∀ k2 ∈ ks, k2 < step.length := fun k2 hk2 => hks k2 (by simp [hk2])
    obtain ⟨hpos, hdel, hrules, hflag⟩ := ih hrest _ _ _ h
    refine ⟨?_, ?_, ?_, ?_⟩
    · rw [hpos, add_tajweed_rule_pos]
    · rw [hdel, add_tajweed_rule_deleted]
    · rw [hrules, add_tajweed_rule_rulesOf]
      simp [rulesOf]
    · rw [hflag]
      simp [Bool.and_assoc]

theorem pure_bind {α β : Type} (a : α) (f : α → Except PyErr β) :
    ((pure a : Except PyErr α) >>= f) = f a := rfl

/-- Full characterisation of `mergeEntry` on a well-formed accumulated entry:
deleted entries are re-anchored (head of `step[lo]` when `lo` is in range,
tail anchor otherwise) and keep flag and rules; live entries span
`(step[lo].start, step[hi-1].end)`, append the step rules of `[lo, hi)` in
order, and are deleted exactly when all covered step entries are. -/
theorem mergeEntry_spec {step : List MappingPos} (hstep : step ≠ [])
    (x : MappingPos)
    (hdel : x.deleted = true → x.pos.1 = x.pos.2)
    (hlive : x.deleted = false → x.pos.1 < x.pos.2 ∧ x.pos.2 ≤ step.length) :
    ∃ y, mergeEntry step x = .ok y ∧
      (x.deleted = true →
        y.pos = (if x.pos.1 < step.length then
            ((step.getD x.pos.1 dummyPos).pos.1, (step.getD x.pos.1 dummyPos).pos.1)
          else
            ((step.getLastD dummyPos).pos.2, (step.getLastD dummyPos).pos.2)) ∧
        y.deleted = true ∧ y.tajweed_rules = x.tajweed_rules) ∧
      (x.deleted = false →
        y.pos = ((step.getD x.pos.1 dummyPos).pos.1,
                 (step.getD (x.pos.2 - 1) dummyPos).pos.2) ∧
        rulesOf y = rulesOf x ++ stepRules step x.pos.1 x.pos.2 ∧
        (y.deleted = true ↔
          ∀ k ∈ List.range' x.pos.1 (x.pos.2 - x.pos.1),
            (step.getD k dummyPos).deleted = true)) := by
  have hgetD : ∀ k, k < step.length → step.get? k = some (step.getD k dummyPos) := by
    intro k hk
    cases hq : step.get? k with
    | none =>
      have := List.get?_eq_none.mp hq
      omega
    | some v =>
      rw [List.getD_eq_getElem?_getD, ← List.get?_eq_getElem?, hq]
      rfl
  cases hxdel : x.deleted with
  | true =>
    have hpt : x.pos.1 = x.pos.2 := hdel hxdel
    unfold mergeEntry
    rw [hxdel]
    simp only [if_true]
    by_cases hlo : x.pos.1 < step.length
    · rw [if_pos hlo]
      rw [pyGet_ofNat (hgetD _ hlo), ok_bind]
      have hrange : List.range' x.pos.1 (x.pos.2 - x.pos.1) = [] := by
        have : x.pos.2 - x.pos.1 = 0 := by omega
        rw [this]
        rfl
      rw [hrange]
      refine ⟨_, rfl, ?_, ?_⟩
      · intro _
        refine ⟨?_, rfl, rfl⟩
        rw [if_pos hlo]
      · intro hc
        simp [hxdel] at hc
    · rw [if_neg hlo]
      have hlast : step.get? (step.length - 1) = some (step.getLastD dummyPos) := by
        have hl : 0 < step.length := List.length_pos.mpr hstep
        rw [hgetD _ (by omega)]
        congr 1
        rw [List.getLastD_eq_getLast?]
        rw [List.getLast?_eq_getElem?]
        rw [← List.get?_eq_getElem?, hgetD _ (by omega)]
        rfl
      rw [pyGet_neg_one hlast, ok_bind]
      have hrange : List.range' x.pos.1 (x.pos.2 - x.pos.1) = [] := by
        have : x.pos.2 - x.pos.1 = 0 := by omega
        rw [this]
        rfl
      rw [hrange]
      refine ⟨_, rfl, ?_, ?_⟩
      · intro _
        refine ⟨?_, rfl, rfl⟩
        rw [if_neg hlo]
      · intro hc
        simp [hxdel] at hc
  | false =>
    obtain ⟨hlh, hhle⟩ := hlive hxdel
    unfold mergeEntry
    rw [hxdel]
    simp only [Bool.false_eq_true, if_false]
    have hlo : x.pos.1 < step.length := by omega
    rw [pyGet_ofNat (hgetD _ hlo), ok_bind]
    have hhi : (Int.ofNat x.pos.2 - 1 : Int) = Int.ofNat (x.pos.2 - 1) := by
      simp only [Int.ofNat_eq_natCast]
      omega
    rw [hhi]
    have hhi2 : x.pos.2 - 1 < step.length := by omega
    rw [pyGet_ofNat (hgetD _ hhi2), ok_bind, pure_bind]
    have hinrange : ∀ k ∈ List.range' x.pos.1 (x.pos.2 - x.pos.1), k < step.length := by
      intro k hk
      rw [List.mem_range'] at hk
      omega
    cases hfold : (List.range' x.pos.1 (x.pos.2 - x.pos.1)).foldlM
        (fun (acc : MappingPos × Bool) k => do
          let sm ← pyGet step (Int.ofNat k)
          pure (acc.1.add_tajweed_rule sm.tajweed_rules, acc.2 && sm.deleted))
        ({ pos := ((step.getD x.pos.1 dummyPos).pos.1,
            (step.getD (x.pos.2 - 1) dummyPos).pos.2),
           tajweed_rules := x.tajweed_rules, deleted := false }, true) with
    | error e =>
      rw [error_bind]
      exfalso
      -- the fold cannot fail on in-range indices
      revert hfold
      have : ∀ (ks : List Nat), (∀ k ∈ ks, k < step.length) →
          ∀ (st : MappingPos × Bool),
          ks.foldlM (fun (acc : MappingPos × Bool) k => do
            let sm ← pyGet step (Int.ofNat k)
            pure (acc.1.add_tajweed_rule sm.tajweed_rules, acc.2 && sm.deleted)) st
            ≠ .error e := by
        intro ks
        induction ks with
        | nil => intro _ st h; exact Except.noConfusion h
        | cons k rest ih =>
          intro hks st h
          rw [List.foldlM_cons] at h
          rw [pyGet_ofNat (hgetD k (hks k (by simp))), ok_bind] at h
          exact ih (fun k2 hk2 => hks k2 (by simp [hk2])) _ h
      intro hfold
      exact this _ hinrange _ hfold
    | ok r =>
      rw [ok_bind]
      obtain ⟨hpos, hdel2, hrules, hflag⟩ := mergeFold_spec step _ hinrange _ _ _ hfold
      refine ⟨_, rfl, ?_, ?_⟩
      · intro hc
        simp [hxdel] at hc
      · intro _
        refine ⟨?_, ?_, ?_⟩
        · rw [hpos]
        · unfold rulesOf at hrules ⊢
          simp only at hrules
          rw [hrules]
          rfl
        · simp only
          rw [hflag]
          simp [List.all_eq_true]

theorem mapExcept_ok_of_forall {α β : Type} {f : α → Except PyErr β} :
    ∀ {l : List α}, (∀ x ∈ l, ∃ y, f x = .ok y) → ∃ r, mapExcept f l = .ok r := by
  intro l
  induction l with
  | nil => intro _; exact ⟨[], rfl⟩
  | cons a xs ih =>
    intro h
    obtain ⟨y, hy⟩ := h a (by simp)
    obtain ⟨r, hr⟩ := ih (fun x hx => h x (by simp [hx]))
    refine ⟨y :: r, ?_⟩
    unfold mapExcept
    rw [hy, ok_bind, hr, ok_bind]

/-- Counterexample to C3: the accumulated entry `(0,1)` is deleted and refers
to valid indices of the one-entry step mapping, yet after the merge it is no
longer deleted — the final loop recomputes the flag as
`all(step[k].deleted for k in range(0, 1)) = False`, contradicting "with
acc[i] still deleted". -/
theorem claim_C3_counterexample :
    merge_mappings (some [{ pos := (0, 1), deleted := true }]) [{ pos := (0, 1) }]
      = .ok [{ pos := (0, 0) }] ∧
    ({ pos := (0, 1), deleted := true } : MappingPos).deleted = true ∧
    ({ pos := (0, 0) } : MappingPos).deleted = false := by
  exact ⟨by rfl, rfl, rfl⟩

/-- C3 (amended).  With the spec's deleted-span invariant added for the
accumulated entries (`deleted → start == end`, §3.1) and valid indices for
the live ones, `merge_mappings` behaves exactly as the claim describes: a
deleted `acc[i]` is re-anchored at `(step[lo].start, step[lo].start)` when
`lo < len(step)` and at the tail anchor `(step[-1].end, step[-1].end)`
otherwise, staying deleted with its rules untouched; a live `acc[i]` gets
`pos = (step[lo].start, step[hi-1].end)`, the rules of `step[k]` for
`k ∈ [lo, hi)` appended in order, and `deleted = all(step[k].deleted)`. -/
theorem claim_C3_merge_amended (acc step : List MappingPos)
    (hstep : step ≠ [])
    (hwf : ∀ x ∈ acc, (x.deleted = true → x.pos.1 = x.pos.2) ∧
        (x.deleted = false → x.pos.1 < x.pos.2 ∧ x.pos.2 ≤ step.length)) :
    ∃ res, merge_mappings (some acc) step = .ok res ∧ res.length = acc.length ∧
      ∀ i x y, acc.get? i = some x → res.get? i = some y →
        (x.deleted = true →
          y.pos = (if x.pos.1 < step.length then
              ((step.getD x.pos.1 dummyPos).pos.1, (step.getD x.pos.1 dummyPos).pos.1)
            else
              ((step.getLastD dummyPos).pos.2, (step.getLastD dummyPos).pos.2)) ∧
          y.deleted = true ∧ y.tajweed_rules = x.tajweed_rules) ∧
        (x.deleted = false →
          y.pos = ((step.getD x.pos.1 dummyPos).pos.1,
                   (step.getD (x.pos.2 - 1) dummyPos).pos.2) ∧
          rulesOf y = rulesOf x ++ stepRules step x.pos.1 x.pos.2 ∧
          (y.deleted = true ↔
            ∀ k ∈ List.range' x.pos.1 (x.pos.2 - x.pos.1),
              (step.getD k dummyPos).deleted = true)) := by
  have hall : ∀ x ∈ acc, ∃ y, mergeEntry step x = .ok y := by
    intro x hx
    obtain ⟨y, hy, _, _⟩ := mergeEntry_spec hstep x (hwf x hx).1 (hwf x hx).2
    exact ⟨y, hy⟩
  obtain ⟨res, hres⟩ := mapExcept_ok_of_forall hall
  have hmerge : merge_mappings (some acc) step = .ok res := by
    simp only [merge_mappings]
    rw [if_neg hstep]
    exact hres
  refine ⟨res, hmerge, mapExcept_ok_length hres, ?_⟩
  intro i x y hx hy
  obtain ⟨y2, hy2, hfy⟩ := mapExcept_ok_get hres i x hx
  rw [hy] at hy2
  injection hy2 with hyy
  subst hyy
  have hmem : x ∈ acc := List.get?_mem hx
  obtain ⟨y3, hy3, p1, p2⟩ := mergeEntry_spec hstep x (hwf x hmem).1 (hwf x hmem).2
  rw [hfy] at hy3
  injection hy3 with hyy3
  subst hyy3
  exact ⟨p1, p2⟩

/-- Witness for the amended C3 at a concrete merge. -/
theorem claim_C3_merge_amended_witness :
    ∃ res, merge_mappings (some [{ pos := (0, 2) }])
        [{ pos := (0, 1) }, { pos := (1, 3) }] = .ok res ∧ res.length = 1 := by
  obtain ⟨res, h1, h2, _⟩ := claim_C3_merge_amended [{ pos := (0, 2) }]
    [{ pos := (0, 1) }, { pos := (1, 3) }] (by decide) (by decide)
  exact ⟨res, h1, by simp [h2]⟩

/-! ### C10: inversion of the mapping (`extract_ref_phonetic_to_uthmani`) -/

/-- Span `x` covers phonetic position `ph`. -/
def covers (x : MappingPos) (ph : Nat) : Prop :=
  x.pos.1 ≤ ph ∧ ph < x.pos.2

instance (x : MappingPos) (ph : Nat) : Decidable (covers x ph) := by
  unfold covers; infer_instance

theorem coversAt_iff {m : List MappingPos} {i ph : Nat} :
    coversAt m i ph ↔ ∃ x, m.get? i = some x ∧ covers x ph := Iff.rfl

theorem lookup_append {l1 l2 : List (Nat × Nat)} {a : Nat} :
    (l1 ++ l2).lookup a =
      match l1.lookup a with
      | some v => some v
      | none => l2.lookup a := by
  induction l1 with
  | nil => rfl
  | cons p l1 ih =>
    by_cases h : a = p.1
    · simp [List.lookup, h]
    · have hb : (a == p.1) = false := by simpa using h
      simp only [List.cons_append, List.lookup, hb]
      exact ih

theorem lookup_map_pairs {phs : List Nat} {idx a : Nat} :
    (phs.map (fun ph => (ph, idx))).lookup a =
      if a ∈ phs then some idx else none := by
  induction phs with
  | nil => rfl
  | cons p phs ih =>
    by_cases h : a = p
    · simp [List.lookup, h]
    · have hb : (a == p) = false := by simpa using h
      simp only [List.map_cons, List.lookup, hb, ih]
      by_cases hm : a ∈ phs
      · rw [if_pos hm, if_pos (by simp [hm])]
      · rw [if_neg hm, if_neg (by simp [h, hm])]

theorem covers_iff_mem_range {x : MappingPos} {ph : Nat} :
    covers x ph ↔ ph ∈ List.range' x.pos.1 (x.pos.2 - x.pos.1) := by
  rw [List.mem_range'_1]
  unfold covers
  omega

theorem insertRange_ok_iff {idx : Nat} :
    ∀ (phs : List Nat), phs.Nodup →
      ∀ (d d' : List (Nat × Nat)),
      (insertRange idx phs d = .ok d' ↔
        ((∀ ph ∈ phs, d.lookup ph = none) ∧
          d' = d ++ phs.map (fun ph => (ph, idx)))) := by
  intro phs
  induction phs with
  | nil =>
    intro _ d d'
    constructor
    · intro h
      cases h
      exact ⟨by simp, by simp⟩
    · rintro ⟨_, rfl⟩
      simp only [List.map_nil, List.append_nil]
      rfl
  | cons p phs ih =>
    intro hnd d d'
    have hpn : p ∉ phs := (List.nodup_cons.mp hnd).1
    have hnd2 : phs.Nodup := (List.nodup_cons.mp hnd).2
    unfold insertRange at ih ⊢
    rw [List.foldlM_cons]
    constructor
    · intro h
      by_cases hl : (d.lookup p).isSome
      · rw [if_pos hl, error_bind] at h
        exact absurd h (by simp)
      · rw [if_neg hl, ok_bind] at h
        obtain ⟨h1, h2⟩ := (ih hnd2 _ _).mp h
        refine ⟨?_, ?_⟩
        · intro ph hph
          rcases List.mem_cons.mp hph with rfl | hph2
          · exact Option.not_isSome_iff_eq_none.mp hl
          · have := h1 ph hph2
            rw [lookup_append] at this
            cases hd : d.lookup ph with
            | none => rfl
            | some v => rw [hd] at this; exact absurd this (by simp)
        · rw [h2]
          simp
    · rintro ⟨h1, rfl⟩
      have hl : d.lookup p = none := h1 p (by simp)
      rw [if_neg (by simp [hl]), ok_bind]
      refine (ih hnd2 _ _).mpr ⟨?_, by simp⟩
      intro ph hph
      rw [lookup_append]
      rw [h1 ph (by simp [hph])]
      have hb : (ph == p) = false := by
        have : ph ≠ p := fun hc => hpn (hc ▸ hph)
        simpa using this
      simp [List.lookup, hb]

theorem extractGo_ok_spec :
    ∀ (rest : List MappingPos) (idx0 : Nat) (d d2 : List (Nat × Nat)),
      extractGo rest idx0 d = .ok d2 →
      ((∀ ph k x, rest.get? k = some x → covers x ph → d.lookup ph = none) ∧
       (∀ ph k k2 x x2, k ≠ k2 → rest.get? k = some x → rest.get? k2 = some x2 →
          covers x ph → ¬ covers x2 ph) ∧
       (∀ ph i, d2.lookup ph = some i ↔
          (d.lookup ph = some i ∨
            ∃ k x, rest.get? k = some x ∧ i = idx0 + k ∧ covers x ph))) := by
  intro rest
  induction rest with
  | nil =>
    intro idx0 d d2 h
    cases h
    refine ⟨?_, ?_, ?_⟩
    · intro ph k x hk
      simp at hk
    · intro ph k k2 x x2 _ hk
      simp at hk
    · intro ph i
      constructor
      · intro hl
        exact Or.inl hl
      · rintro (hl | ⟨k, x, hk, _, _⟩)
        · exact hl
        · simp at hk
  | cons mp rest ih =>
    intro idx0 d d2 h
    unfold extractGo at h
    cases hins : insertRange idx0 (List.range' mp.pos.1 (mp.pos.2 - mp.pos.1)) d with
    | error e => rw [hins, error_bind] at h; exact absurd h (by simp)
    | ok d1 =>
      rw [hins, ok_bind] at h
      have hnd : (List.range' mp.pos.1 (mp.pos.2 - mp.pos.1)).Nodup :=
        List.nodup_range' _ _
      obtain ⟨hnone, hd1⟩ := (insertRange_ok_iff _ hnd _ _).mp hins
      obtain ⟨ih1, ih2, ih3⟩ := ih (idx0 + 1) d1 d2 h
      have hlook1 : ∀ ph, d1.lookup ph =
          (match d.lookup ph with
            | some v => some v
            | none =>
              if ph ∈ List.range' mp.pos.1 (mp.pos.2 - mp.pos.1) then some idx0
              else none) := by
        intro ph
        rw [hd1, lookup_append]
        cases hd : d.lookup ph with
        | some v => rfl
        | none => rw [lookup_map_pairs]
      refine ⟨?_, ?_, ?_⟩
      · intro ph k x hk hcov
        cases k with
        | zero =>
          simp only [List.get?_cons_zero, Option.some.injEq] at hk
          subst hk
          exact hnone ph (covers_iff_mem_range.mp hcov)
        | succ k =>
          simp only [List.get?_cons_succ] at hk
          have hnone1 := ih1 ph k x hk hcov
          rw [hlook1 ph] at hnone1
          cases hd : d.lookup ph with
          | none => rfl
          | some v => rw [hd] at hnone1; exact absurd hnone1 (by simp)
      · intro ph k k2 x x2 hne hk hk2 hcov hcov2
        cases k with
        | zero =>
          cases k2 with
          | zero => exact absurd rfl hne
          | succ k2 =>
            simp only [List.get?_cons_zero, Option.some.injEq] at hk
            subst hk
            simp only [List.get?_cons_succ] at hk2
            have hnone1 := ih1 ph k2 x2 hk2 hcov2
            rw [hlook1 ph] at hnone1
            rw [hnone ph (covers_iff_mem_range.mp hcov)] at hnone1
            rw [if_pos (covers_iff_mem_range.mp hcov)] at hnone1
            exact absurd hnone1 (by simp)
        | succ k =>
          cases k2 with
          | zero =>
            simp only [List.get?_cons_zero, Option.some.injEq] at hk2
            subst hk2
            simp only [List.get?_cons_succ] at hk
            have hnone1 := ih1 ph k x hk hcov
            rw [hlook1 ph] at hnone1
            rw [hnone ph (covers_iff_mem_range.mp hcov2)] at hnone1
            rw [if_pos (covers_iff_mem_range.mp hcov2)] at hnone1
            exact absurd hnone1 (by simp)
          | succ k2 =>
            simp only [List.get?_cons_succ] at hk hk2
            exact ih2 ph k k2 x x2 (by omega) hk hk2 hcov hcov2
      · intro ph i
        rw [ih3 ph i]
        constructor
        · rintro (hd1l | ⟨k, x, hk, hi, hcov⟩)
          · rw [hlook1 ph] at hd1l
            cases hd : d.lookup ph with
            | some v =>
              rw [hd] at hd1l
              exact Or.inl (by simpa using hd1l)
            | none =>
              rw [hd] at hd1l
              by_cases hmem : ph ∈ List.range' mp.pos.1 (mp.pos.2 - mp.pos.1)
              · have hi0 : idx0 = i := by
                  rw [if_pos hmem] at hd1l
                  simpa using hd1l
                refine Or.inr ⟨0, mp, rfl, by omega, ?_⟩
                exact covers_iff_mem_range.mpr hmem
              · rw [if_neg hmem] at hd1l
                exact absurd hd1l (by simp)
          · exact Or.inr ⟨k + 1, x, by simpa using hk, by omega, hcov⟩
        · rintro (hdl | ⟨k, x, hk, hi, hcov⟩)
          · refine Or.inl ?_
            rw [hlook1 ph, hdl]
          · cases k with
            | zero =>
              simp only [List.get?_cons_zero, Option.some.injEq] at hk
              subst hk
              refine Or.inl ?_
              rw [hlook1 ph]
              rw [hnone ph (covers_iff_mem_range.mp hcov)]
              show (if ph ∈ List.range' mp.pos.1 (mp.pos.2 - mp.pos.1) then some idx0
                else none) = some i
              rw [if_pos (covers_iff_mem_range.mp hcov)]
              simp only [Option.some.injEq]
              omega
            | succ k =>
              simp only [List.get?_cons_succ] at hk
              exact Or.inr ⟨k, x, hk, by omega, hcov⟩

theorem extractGo_ok_of_disjoint :
    ∀ (rest : List MappingPos) (idx0 : Nat) (d : List (Nat × Nat)),
      (∀ ph k x, rest.get? k = some x → covers x ph → d.lookup ph = none) →
      (∀ ph k k2 x x2, k ≠ k2 → rest.get? k = some x → rest.get? k2 = some x2 →
        covers x ph → ¬ covers x2 ph) →
      ∃ d2, extractGo rest idx0 d = .ok d2 := by
  intro rest
  induction rest with
  | nil =>
    intro idx0 d _ _
    exact ⟨d, rfl⟩
  | cons mp rest ih =>
    intro idx0 d h1 h2
    have hnd : (List.range' mp.pos.1 (mp.pos.2 - mp.pos.1)).Nodup :=
      List.nodup_range' _ _
    have hnone : ∀ ph ∈ List.range' mp.pos.1 (mp.pos.2 - mp.pos.1),
        d.lookup ph = none := by
      intro ph hph
      exact h1 ph 0 mp (by simp) (covers_iff_mem_range.mpr hph)
    have hins : insertRange idx0 (List.range' mp.pos.1 (mp.pos.2 - mp.pos.1)) d
        = .ok (d ++ (List.range' mp.pos.1 (mp.pos.2 - mp.pos.1)).map
            (fun ph => (ph, idx0))) :=
      (insertRange_ok_iff _ hnd _ _).mpr ⟨hnone, rfl⟩
    have h1' : ∀ ph k x, rest.get? k = some x → covers x ph →
        (d ++ (List.range' mp.pos.1 (mp.pos.2 - mp.pos.1)).map
          (fun ph => (ph, idx0))).lookup ph = none := by
      intro ph k x hk hcov
      rw [lookup_append]
      rw [h1 ph (k + 1) x (by simpa using hk) hcov]
      rw [lookup_map_pairs]
      rw [if_neg]
      intro hmem
      exact h2 ph 0 (k + 1) mp x (by omega) (by simp) (by simpa using hk)
        (covers_iff_mem_range.mpr hmem) hcov
    have h2' : ∀ ph k k2 x x2, k ≠ k2 → rest.get? k = some x →
        rest.get? k2 = some x2 → covers x ph → ¬ covers x2 ph := by
      intro ph k k2 x x2 hne hk hk2
      exact h2 ph (k + 1) (k2 + 1) x x2 (by omega) (by simpa using hk)
        (by simpa using hk2)
    obtain ⟨d2, hd2⟩ := ih (idx0 + 1) _ h1' h2'
    refine ⟨d2, ?_⟩
    unfold extractGo
    rw [hins, ok_bind]
    exact hd2

theorem insertRange_error_only {idx : Nat} :
    ∀ (phs : List Nat) (d : List (Nat × Nat)) (e : PyErr),
      insertRange idx phs d = .error e → e = PyErr.valueError := by
  intro phs
  induction phs with
  | nil => intro d e h; exact Except.noConfusion h
  | cons p phs ih =>
    intro d e h
    unfold insertRange at h ih
    rw [List.foldlM_cons] at h
    by_cases hl : (d.lookup p).isSome
    · rw [if_pos hl, error_bind] at h
      injection h with he
      exact he.symm
    · rw [if_neg hl, ok_bind] at h
      exact ih _ e h

theorem extractGo_error_only :
    ∀ (rest : List MappingPos) (idx0 : Nat) (d : List (Nat × Nat)) (e : PyErr),
      extractGo rest idx0 d = .error e → e = PyErr.valueError := by
  intro rest
  induction rest with
  | nil => intro idx0 d e h; exact Except.noConfusion h
  | cons mp rest ih =>
    intro idx0 d e h
    unfold extractGo at h
    cases hins : insertRange idx0 (List.range' mp.pos.1 (mp.pos.2 - mp.pos.1)) d with
    | error e2 =>
      rw [hins, error_bind] at h
      injection h with he
      rw [← he]
      exact insertRange_error_only _ _ _ hins
    | ok d1 =>
      rw [hins, ok_bind] at h
      exact ih _ _ _ h

/-- C10.  `extract_ref_phonetic_to_uthmani` raises `ValueError` exactly when
two distinct spans of the mapping list overlap (some phonetic position lies
in both ranges); otherwise it returns the dictionary assigning to every
covered phonetic index the unique source index whose span contains it —
mapping inversion is well-defined only for overlap-free mappings and the
code enforces this. -/
theorem claim_C10_extract_inversion (m : List MappingPos) :
    (extract_ref_phonetic_to_uthmani m = .error PyErr.valueError ↔
      ∃ i j ph, i ≠ j ∧ coversAt m i ph ∧ coversAt m j ph) ∧
    (∀ d, extract_ref_phonetic_to_uthmani m = .ok d →
      ∀ ph i, d.lookup ph = some i ↔ coversAt m i ph) := by
  constructor
  · constructor
    · intro herr
      by_contra hno
      push_neg at hno
      have h1 : ∀ ph k x, m.get? k = some x → covers x ph →
          ([] : List (Nat × Nat)).lookup ph = none := by
        intro ph k x _ _
        rfl
      have h2 : ∀ ph k k2 x x2, k ≠ k2 → m.get? k = some x →
          m.get? k2 = some x2 → covers x ph → ¬ covers x2 ph := by
        intro ph k k2 x x2 hne hk hk2 hc hc2
        exact (hno k k2 ph hne ⟨x, hk, hc⟩) ⟨x2, hk2, hc2⟩
      obtain ⟨d2, hd2⟩ := extractGo_ok_of_disjoint m 0 [] h1 h2
      have hd3 : extract_ref_phonetic_to_uthmani m = .ok d2 := hd2
      rw [herr] at hd3
      exact absurd hd3 (by simp)
    · rintro ⟨i, j, ph, hne, hci, hcj⟩
      cases hres : extract_ref_phonetic_to_uthmani m with
      | error e =>
        have he := extractGo_error_only m 0 [] e hres
        rw [he]
      | ok d =>
        obtain ⟨_, _, h3⟩ := extractGo_ok_spec m 0 [] d hres
        obtain ⟨x, hx, hc⟩ := hci
        obtain ⟨x2, hx2, hc2⟩ := hcj
        have hil : d.lookup ph = some i :=
          (h3 ph i).mpr (Or.inr ⟨i, x, hx, by omega, hc⟩)
        have hjl : d.lookup ph = some j :=
          (h3 ph j).mpr (Or.inr ⟨j, x2, hx2, by omega, hc2⟩)
        rw [hil] at hjl
        injection hjl with hij
        exact absurd hij hne
  · intro d hok ph i
    obtain ⟨_, _, h3⟩ := extractGo_ok_spec m 0 [] d hok
    rw [h3 ph i]
    constructor
    · rintro (hl | ⟨k, x, hk, hi, hc⟩)
      · exact absurd hl (by simp [List.lookup])
      · have hik : i = k := by omega
        subst hik
        exact ⟨x, hk, hc⟩
    · rintro ⟨x, hx, hc⟩
      exact Or.inr ⟨i, x, hx, by omega, hc⟩

/-- Witness for C10 on a two-codepoint span: the inversion maps both covered
phonetic indices to source index 0. -/
theorem claim_C10_extract_inversion_witness :
    extract_ref_phonetic_to_uthmani [{ pos := (0, 2) }] = .ok [(0, 0), (1, 0)] ∧
    (([(0, 0), (1, 0)] : List (Nat × Nat)).lookup 1 = some 0 ↔
      coversAt [({ pos := (0, 2) } : MappingPos)] 0 1) := by
  refine ⟨by rfl, ?_⟩
  exact (claim_C10_extract_inversion [{ pos := (0, 2) }]).2 [(0, 0), (1, 0)] (by rfl) 1 0

/-! ### The identity substitution (claim C4) -/

/-- Step mapping produced by the opcode walk for the identity edit script
`[("equal", 0, n, 0, n)]` (the script `Levenshtein.opcodes` returns when the
substituted text equals the input): every slot set to its own one-codepoint
span. -/
def identityOpt (n : Nat) : List (Option MappingPos) :=
  (List.range' 0 n).map (fun i => some { pos := (i, i + 1) })

/-- The identity step mapping after `filterMap` of the (all set) slots. -/
def identityStep (n : Nat) : List MappingPos :=
  (List.range' 0 n).map (fun i => { pos := (i, i + 1) })

theorem get_range' (s n i : Nat) :
    (List.range' s n).get? i = if i < n then some (s + i) else none := by
  induction n generalizing s i with
  | zero => simp [List.range']
  | succ m ih =>
    cases i with
    | zero => simp [List.range']
    | succ k =>
      simp only [List.range', List.get?_cons_succ, ih]
      rcases Nat.lt_or_ge k m with h | h
      · rw [if_pos h, if_pos (by omega)]
        congr 1
        omega
      · rw [if_neg (by omega), if_neg (by omega)]

theorem get_replicate {α : Type} (a : α) (n i : Nat) :
    (List.replicate n a).get? i = if i < n then some a else none := by
  induction n generalizing i with
  | zero => simp
  | succ m ih =>
    cases i with
    | zero => simp [List.replicate]
    | succ k =>
      simp only [List.replicate, List.get?_cons_succ, ih]
      rcases Nat.lt_or_ge k m with h | h
      · rw [if_pos h, if_pos (by omega)]
      · rw [if_neg (by omega), if_neg (by omega)]

theorem zip_self {α : Type} : ∀ (l : List α), List.zip l l = l.map (fun x => (x, x))
  | [] => rfl
  | x :: xs => by
    simp only [List.zip_cons_cons, List.map_cons]
    rw [zip_self xs]

theorem identityStep_length (n : Nat) : (identityStep n).length = n := by
  simp [identityStep]

theorem identityStep_get {n i : Nat} (h : i < n) :
    (identityStep n).get? i = some { pos := (i, i + 1) } := by
  simp [identityStep, List.get?_map, get_range', h]

theorem identityOpt_get (n i : Nat) :
    (identityOpt n).get? i =
      if i < n then some (some { pos := (i, i + 1) }) else none := by
  simp only [identityOpt, List.get?_map, get_range']
  rcases Nat.lt_or_ge i n with h | h
  · rw [if_pos h, if_pos h]
    simp
  · rw [if_neg (by omega), if_neg (by omega)]
    simp

/-- A fold whose body fixes the state is the identity on the state. -/
theorem foldlM_fix {σ β : Type} {f : σ → β → Except PyErr σ} :
    ∀ (bs : List β) (s : σ), (∀ b ∈ bs, f s b = .ok s) → bs.foldlM f s = .ok s
  | [], _, _ => rfl
  | b :: bs, s, h => by
    rw [List.foldlM_cons, h b (List.mem_cons_self b bs), ok_bind]
    exact foldlM_fix bs s (fun x hx => h x (List.mem_cons_of_mem b hx))

/-- An elementwise traversal whose body fixes every element is the identity. -/
theorem mapExcept_fix {α : Type} {f : α → Except PyErr α} :
    ∀ (l : List α), (∀ x ∈ l, f x = .ok x) → mapExcept f l = .ok l
  | [], _ => rfl
  | x :: xs, h => by
    simp only [mapExcept]
    rw [h x (List.mem_cons_self x xs), ok_bind,
      mapExcept_fix xs (fun y hy => h y (List.mem_cons_of_mem x hy)), ok_bind]

/-- The `equal`-branch fold over distinct still-unset indices paired with
themselves sets each to its own one-codepoint span and nothing else. -/
theorem equalFold_identity
    (f : List (Option MappingPos) → Nat × Nat → Except PyErr (List (Option MappingPos)))
    (hf : ∀ (nm : List (Option MappingPos)) (i : Nat), nm.get? i = some none →
      f nm (i, i) = .ok (nm.set i (some { pos := (i, i + 1) }))) :
    ∀ (ks : List Nat) (nm : List (Option MappingPos)), ks.Nodup →
      (∀ i ∈ ks, nm.get? i = some none) →
      ∃ nm2, (ks.map (fun i => (i, i))).foldlM f nm = .ok nm2 ∧
        (∀ i ∈ ks, nm2.get? i = some (some { pos := (i, i + 1) })) ∧
        (∀ j, j ∉ ks → nm2.get? j = nm.get? j) := by
  intro ks
  induction ks with
  | nil => exact fun nm _ _ => ⟨nm, rfl, by simp, fun _ _ => rfl⟩
  | cons i ks ih =>
    intro nm hnd hall
    have hi : nm.get? i = some none := hall i (List.mem_cons_self i ks)
    have hilen : i < nm.length := (List.get?_eq_some.mp hi).1
    have hnotmem : i ∉ ks := (List.nodup_cons.mp hnd).1
    have hall2 : ∀ j ∈ ks, (nm.set i (some { pos := (i, i + 1) })).get? j = some none := by
      intro j hj
      rw [List.get?_set_ne _ _ (fun h => hnotmem (by rw [h]; exact hj))]
      exact hall j (List.mem_cons_of_mem i hj)
    obtain ⟨nm2, hfold, hin, hout⟩ :=
      ih (nm.set i (some { pos := (i, i + 1) })) (List.nodup_cons.mp hnd).2 hall2
    refine ⟨nm2, ?_, ?_, ?_⟩
    · rw [List.map_cons, List.foldlM_cons, hf nm i hi, ok_bind, hfold]
    · intro j hj
      rcases List.mem_cons.mp hj with rfl | hj2
      · rw [hout j hnotmem, List.get?_set_eq_of_lt]
        exact hilen
      · exact hin j hj2
    · intro j hj
      have hji : i ≠ j := fun h => hj (h ▸ List.mem_cons_self i ks)
      have hjks : j ∉ ks := fun h => hj (List.mem_cons_of_mem i h)
      rw [hout j hjks, List.get?_set_ne _ _ hji]

/-- The `equal` branch applied to the full-range identity opcode turns the
all-`None` slot list into the identity step mapping. -/
theorem applyEqual_identity (n : Nat) :
    applyEqual (List.replicate n none) ⟨OpTag.equal, 0, n, 0, n⟩
      = .ok (identityOpt n) := by
  have hf : ∀ (nm : List (Option MappingPos)) (i : Nat), nm.get? i = some none →
      (fun nm (p : Nat × Nat) => do
        match (← pyGet nm (Int.ofNat p.1)) with
        | none => pySet nm (Int.ofNat p.1) (some { pos := (p.2, p.2 + 1) })
        | some _ => pure nm) nm (i, i)
        = .ok (nm.set i (some { pos := (i, i + 1) })) := by
    intro nm i h
    have hlen : i < nm.length := (List.get?_eq_some.mp h).1
    simp only
    rw [pyGet_ofNat h, ok_bind]
    exact pySet_ofNat hlen _
  obtain ⟨nm2, hfold, hin, hout⟩ :=
    equalFold_identity
      (fun nm (p : Nat × Nat) => do
        match (← pyGet nm (Int.ofNat p.1)) with
        | none => pySet nm (Int.ofNat p.1) (some { pos := (p.2, p.2 + 1) })
        | some _ => pure nm)
      hf (List.range' 0 n) (List.replicate n none)
      (List.nodup_range' _ _)
      (fun i hmem => by
        rw [get_replicate, if_pos]
        have := List.mem_range'_1.mp hmem
        omega)
  have hnm2 : nm2 = identityOpt n := by
    apply List.ext
    intro j
    rw [identityOpt_get]
    rcases Nat.lt_or_ge j n with hj | hj
    · rw [if_pos hj]
      exact hin j (List.mem_range'_1.mpr ⟨by omega, by omega⟩)
    · rw [if_neg (by omega)]
      rw [hout j (fun hmem => by have := List.mem_range'_1.mp hmem; omega)]
      rw [get_replicate, if_neg (by omega)]
  simp only [applyEqual, zipRanges, Nat.sub_zero, zip_self]
  rw [hfold, hnm2]

/-- The opcode walk of the identity edit script builds the identity step
mapping. -/
theorem buildStep_identity (text : List Char) (rule : Option TajweedRule) :
    buildStepMappings text text rule
        [⟨OpTag.equal, 0, text.length, 0, text.length⟩]
      = .ok (identityOpt text.length) := by
  have hall : (identityOpt text.length).all (fun x => x.isSome) = true := by
    simp [identityOpt, List.all_map, List.all_eq_true]
  simp only [buildStepMappings]
  rw [walkOps]
  simp only [walkDispatch, List.head?]
  rw [applyEqual_identity, ok_bind, pure_bind, pure_bind]
  show (if (identityOpt text.length).all (fun x => x.isSome) = true then
      pure (identityOpt text.length) else Except.error PyErr.assertionError)
    = Except.ok (identityOpt text.length)
  rw [if_pos hall]
  rfl

theorem filterMap_some_map {α β : Type} (g : α → β) :
    ∀ (l : List α), (l.map (fun x => some (g x))).filterMap id = l.map g
  | [] => rfl
  | x :: xs => by
    simp only [List.map_cons, List.filterMap_cons, id]
    rw [filterMap_some_map g xs]

theorem identityOpt_filterMap (n : Nat) :
    (identityOpt n).filterMap id = identityStep n := by
  exact filterMap_some_map _ (List.range' 0 n)

/-- The leen post-pass fixes the identity step mapping: no entry carries a
rules object. -/
theorem leenPass_identity (newText : List Char) (n : Nat) :
    leenPass newText (identityStep n) = .ok (identityStep n) := by
  apply mapExcept_fix
  intro x hx
  rcases List.mem_map.mp hx with ⟨i, _, rfl⟩
  rfl

/-- Every match start of the tanween scanner sits at least two codepoints
before the end of the scanned window. -/
theorem tanweenGo_bound :
    ∀ (l : List Char) (i skip q : Nat), q ∈ tanweenGo l i skip →
      i ≤ q ∧ q + 2 ≤ i + l.length := by
  intro l
  induction l with
  | nil => intro i skip q h; simp [tanweenGo] at h
  | cons a rest ih =>
    intro i skip q h
    by_cases hs : skip > 0
    · simp only [tanweenGo, if_pos hs] at h
      have := ih (i + 1) (skip - 1) q h
      constructor
      · omega
      · simp only [List.length_cons]
        omega
    · cases rest with
      | nil => simp [tanweenGo, if_neg hs] at h
      | cons b rest2 =>
        simp only [tanweenGo, if_neg hs] at h
        by_cases hc : a = tanweenIdhaamDeterminer ∧ b ≠ '$'
        · rw [if_pos hc] at h
          rcases List.mem_cons.mp h with rfl | h2
          · simp only [List.length_cons]
            omega
          · have := ih (i + 1) 1 q h2
            constructor
            · omega
            · simp only [List.length_cons] at this ⊢
              omega
        · rw [if_neg hc] at h
          have := ih (i + 1) 0 q h
          constructor
          · omega
          · simp only [List.length_cons] at this ⊢
            omega

/-- Every match span of the shadda scanner has width at least three and ends
inside the scanned window. -/
theorem shaddaGo_bound :
    ∀ (l : List Char) (i skip : Nat) (fs : Nat × Nat), fs ∈ shaddaGo l i skip →
      fs.1 + 3 ≤ fs.2 ∧ fs.2 ≤ i + l.length := by
  intro l
  induction l with
  | nil => intro i skip fs h; simp [shaddaGo] at h
  | cons a rest ih =>
    intro i skip fs h
    by_cases hs : skip > 0
    · simp only [shaddaGo, if_pos hs] at h
      have := ih (i + 1) (skip - 1) fs h
      simp only [List.length_cons]
      omega
    · cases rest with
      | nil => simp [shaddaGo, if_neg hs] at h
      | cons b rest1 =>
        cases rest1 with
        | nil => simp [shaddaGo, if_neg hs] at h
        | cons c rest2 =>
          simp only [shaddaGo, if_neg hs] at h
          by_cases h1 : a ≠ uthmaniSpace ∧ b = uthmaniSpace
          · rw [if_pos h1] at h
            cases rest2 with
            | nil =>
              have := ih (i + 1) 0 fs h
              simp only [List.length_cons] at this ⊢
              omega
            | cons d rest3 =>
              simp only [] at h
              by_cases h2 : c = a ∧ d = uthmaniShadda
              · rw [if_pos h2] at h
                rcases List.mem_cons.mp h with rfl | h3
                · simp only [List.length_cons]
                  omega
                · have := ih (i + 1) 3 fs h3
                  simp only [List.length_cons] at this ⊢
                  omega
              · rw [if_neg h2] at h
                have := ih (i + 1) 0 fs h
                simp only [List.length_cons] at this ⊢
                omega
          · rw [if_neg h1] at h
            by_cases h2 : a ≠ uthmaniSpace ∧ b = a ∧ c = uthmaniShadda
            · rw [if_pos h2] at h
              rcases List.mem_cons.mp h with rfl | h3
              · simp only [List.length_cons]
                omega
              · have := ih (i + 1) 2 fs h3
                simp only [List.length_cons] at this ⊢
                omega
            · rw [if_neg h2] at h
              have := ih (i + 1) 0 fs h
              simp only [List.length_cons] at this ⊢
              omega

/-- A text in which no qalqalah marker follows a codepoint other than the
skoon sign and the shadda yields no qalqalah matches. -/
theorem qalqalahGo_nil :
    ∀ (l : List Char),
      (∀ (k : Nat) (a b : Char), l.get? k = some a → l.get? (k + 1) = some b →
        a = uthmaniRasHaaa ∨ a = uthmaniShadda ∨ b ≠ phQlqla) →
      ∀ (i skip : Nat), qalqalahGo l i skip = [] := by
  intro l
  induction l with
  | nil => intro _ i skip; simp [qalqalahGo]
  | cons a rest ih =>
    intro h i skip
    have h2 : ∀ (k : Nat) (x y : Char), rest.get? k = some x →
        rest.get? (k + 1) = some y →
        x = uthmaniRasHaaa ∨ x = uthmaniShadda ∨ y ≠ phQlqla := by
      intro k x y hx hy
      exact h (k + 1) x y (by simpa using hx) (by simpa using hy)
    by_cases hs : skip > 0
    · simp only [qalqalahGo, if_pos hs]
      exact ih h2 (i + 1) (skip - 1)
    · cases rest with
      | nil => simp [qalqalahGo, hs]
      | cons b rest2 =>
        simp only [qalqalahGo, if_neg hs]
        have hab := h 0 a b (by rfl) (by rfl)
        rw [if_neg (by tauto)]
        exact ih h2 (i + 1) 0

/-- The tanween post-pass fixes the identity step mapping: the matched
codepoint equals its image. -/
theorem tanweenPass_identity (text : List Char) :
    tanweenPass text text (identityStep text.length)
      = .ok (identityStep text.length) := by
  apply foldlM_fix
  intro q hq
  have hb := tanweenGo_bound text 0 0 q hq
  have hqlt : q < text.length := by omega
  have hc : text.get? q = some (text.get ⟨q, hqlt⟩) := List.get?_eq_get hqlt
  simp only [tanweenApply]
  rw [pyGet_ofNat (identityStep_get hqlt), ok_bind]
  rw [pyGet_ofNat hc, ok_bind]
  rw [ok_bind, if_neg (by simp)]
  rfl

/-- The shadda post-pass fixes the identity step mapping: no entry is
deleted. -/
theorem shaddaPass_identity (text : List Char) :
    shaddaPass text (identityStep text.length)
      = .ok (identityStep text.length) := by
  apply foldlM_fix
  intro fs hfs
  have hb := shaddaGo_bound text 0 0 fs hfs
  have h1 : fs.1 < text.length := by omega
  have h2 : fs.2 - 2 < text.length := by omega
  simp only [shaddaApply]
  rw [pyGet_ofNat (identityStep_get h1), ok_bind]
  rw [pyGet_ofNat (identityStep_get h2), ok_bind]
  rw [if_neg (by simp)]
  rfl

/-- A fold whose body keeps the carried entry and zeroes the flag. -/
theorem foldlM_pair_flag {β : Type}
    {f : MappingPos × Bool → β → Except PyErr (MappingPos × Bool)} :
    ∀ (ks : List β) (m : MappingPos) (d : Bool),
      (∀ (m2 : MappingPos) (d2 : Bool) (k : β), k ∈ ks →
        f (m2, d2) k = .ok (m2, false)) →
      ks.foldlM f (m, d) = .ok (m, d && ks.isEmpty) := by
  intro ks
  induction ks with
  | nil =>
    intro m d _
    show Except.ok (m, d) = Except.ok (m, d && [].isEmpty)
    rw [List.isEmpty_nil, Bool.and_true]
  | cons k ks ih =>
    intro m d h
    rw [List.foldlM_cons, h m d k (List.mem_cons_self k ks), ok_bind,
      ih m false (fun m2 d2 k2 hk2 => h m2 d2 k2 (List.mem_cons_of_mem k hk2))]
    simp

/-- Merging a well-formed accumulated entry through the identity step mapping
returns the entry unchanged. -/
theorem mergeEntry_identity {n : Nat} (hn : 0 < n) (x : MappingPos)
    (hdel : x.deleted = true → x.pos.1 = x.pos.2 ∧ x.pos.2 ≤ n)
    (hlive : x.deleted = false → x.pos.1 < x.pos.2 ∧ x.pos.2 ≤ n) :
    mergeEntry (identityStep n) x = .ok x := by
  have hfold : ∀ (ks : List Nat), (∀ k ∈ ks, k < n) →
      ∀ (m : MappingPos) (d : Bool),
      ks.foldlM
        (fun (acc : MappingPos × Bool) k => do
          let sm ← pyGet (identityStep n) (Int.ofNat k)
          pure (acc.1.add_tajweed_rule sm.tajweed_rules, acc.2 && sm.deleted))
        (m, d) = .ok (m, d && ks.isEmpty) := by
    intro ks hks m d
    apply foldlM_pair_flag
    intro m2 d2 k hk
    rw [pyGet_ofNat (identityStep_get (hks k hk)), ok_bind]
    show Except.ok (m2.add_tajweed_rule none, d2 && false) = Except.ok (m2, false)
    rw [Bool.and_false]
    rfl
  cases hd : x.deleted with
  | true =>
    obtain ⟨hpt, hle⟩ := hdel hd
    simp only [mergeEntry, hd, if_pos, identityStep_length]
    rcases Nat.lt_or_ge x.pos.1 n with hlt | hge
    · rw [if_pos hlt, pyGet_ofNat (identityStep_get hlt), ok_bind, pure_bind]
      rw [hpt, Nat.sub_self, List.range'_zero]
      rw [hfold [] (by simp) _ true, ok_bind]
      show Except.ok ({ pos := (x.pos.2, x.pos.2),
                        tajweed_rules := x.tajweed_rules,
                        deleted := true } : MappingPos) = Except.ok x
      nth_rewrite 1 [← hpt]
      rw [Prod.mk.eta, ← hd]
    · have hn1 : 0 < n := by omega
      have heq : x.pos.1 = n := by omega
      rw [if_neg (by omega)]
      have hlast : (identityStep n).get? ((identityStep n).length - 1)
          = some { pos := (n - 1, n - 1 + 1) } := by
        rw [identityStep_length]
        exact identityStep_get (by omega)
      rw [pyGet_neg_one hlast, ok_bind, pure_bind]
      have hsz : x.pos.2 - x.pos.1 = 0 := by omega
      rw [hsz, List.range'_zero, hfold [] (by simp) _ true, ok_bind]
      show Except.ok ({ pos := (n - 1 + 1, n - 1 + 1),
                        tajweed_rules := x.tajweed_rules,
                        deleted := true } : MappingPos) = Except.ok x
      have hn2 : n - 1 + 1 = x.pos.1 := by omega
      rw [hn2]
      nth_rewrite 2 [hpt]
      rw [Prod.mk.eta, ← hd]
  | false =>
    obtain ⟨hlt, hle⟩ := hlive hd
    have hlo : x.pos.1 < n := by omega
    have hhi : x.pos.2 - 1 < n := by omega
    simp only [mergeEntry, hd, identityStep_length]
    rw [if_neg (by simp)]
    rw [pyGet_ofNat (identityStep_get hlo), ok_bind]
    have hcast : (Int.ofNat x.pos.2 - 1) = Int.ofNat (x.pos.2 - 1) := by
      simp only [Int.ofNat_eq_natCast]
      omega
    rw [hcast, pyGet_ofNat (identityStep_get hhi), ok_bind, pure_bind]
    rw [hfold (List.range' x.pos.1 (x.pos.2 - x.pos.1))
      (fun k hk => by have := List.mem_range'_1.mp hk; omega) _ true, ok_bind]
    have hlen2 : (List.range' x.pos.1 (x.pos.2 - x.pos.1)).length
        = x.pos.2 - x.pos.1 := by
      simp
    have hne : (List.range' x.pos.1 (x.pos.2 - x.pos.1)).isEmpty = false := by
      cases hk : List.range' x.pos.1 (x.pos.2 - x.pos.1) with
      | nil =>
        exfalso
        rw [hk] at hlen2
        simp at hlen2
        omega
      | cons y ys => rfl
    rw [hne]
    show Except.ok ({ pos := (x.pos.1, x.pos.2 - 1 + 1),
                      tajweed_rules := x.tajweed_rules,
                      deleted := true && false } : MappingPos) = Except.ok x
    have hn2 : x.pos.2 - 1 + 1 = x.pos.2 := by omega
    rw [hn2, Bool.true_and, Prod.mk.eta, ← hd]

/-- Merging a well-formed accumulated mapping through the identity step
mapping returns it unchanged. -/
theorem merge_identity {n : Nat} (hn : 0 < n) (acc : List MappingPos)
    (hwf : ∀ x ∈ acc,
      (x.deleted = true → x.pos.1 = x.pos.2 ∧ x.pos.2 ≤ n) ∧
      (x.deleted = false → x.pos.1 < x.pos.2 ∧ x.pos.2 ≤ n)) :
    merge_mappings (some acc) (identityStep n) = .ok acc := by
  simp only [merge_mappings]
  rw [if_neg]
  · apply mapExcept_fix
    intro x hx
    exact mergeEntry_identity hn x (hwf x hx).1 (hwf x hx).2
  · intro h
    have := identityStep_length n
    rw [h] at this
    simp at this
    omega

/-- `get_mappings` on the identity edit script of a non-empty text with no
qalqalah-eligible site: the accumulated mapping passes through unchanged. -/
theorem get_mappings_identity (text : List Char) (acc : List MappingPos)
    (rule : Option TajweedRule) (htext : text ≠ [])
    (hwf : ∀ x ∈ acc,
      (x.deleted = true → x.pos.1 = x.pos.2 ∧ x.pos.2 ≤ text.length) ∧
      (x.deleted = false → x.pos.1 < x.pos.2 ∧ x.pos.2 ≤ text.length))
    (hchain : chainOk text.length acc = true)
    (hq : ∀ (k : Nat) (a b : Char), text.get? k = some a →
      text.get? (k + 1) = some b →
      a = uthmaniRasHaaa ∨ a = uthmaniShadda ∨ b ≠ phQlqla) :
    get_mappings text text [⟨OpTag.equal, 0, text.length, 0, text.length⟩]
        (some acc) rule = .ok acc := by
  have hn : 0 < text.length := List.length_pos.mpr htext
  simp only [get_mappings]
  rw [if_neg htext]
  rw [buildStep_identity text rule, ok_bind]
  rw [identityOpt_filterMap, leenPass_identity, ok_bind]
  rw [tanweenPass_identity, ok_bind]
  rw [shaddaPass_identity, ok_bind]
  rw [merge_identity hn acc hwf, ok_bind]
  have hqnil : qalqalahPass text acc = .ok acc := by
    simp only [qalqalahPass, qalqalahMatches]
    rw [qalqalahGo_nil text hq 0 0]
    rfl
  rw [hqnil, ok_bind, if_pos hchain]
  rfl

/-- C4, counterexample.  A never-matching pattern leaves `re.sub` output equal
to the input, and the edit script of two equal strings is the single opcode
`("equal", 0, len(text), 0, len(text))`; yet on the text `بڇ` — a qalqalah
marker after a plain letter — with the accumulated identity mapping, the
qalqalah post-pass rewrites the merged mapping: the returned mapping differs
from the accumulated one, so the identity substitution is not the identity on
the mapping. -/
theorem claim_C4_counterexample :
    sub_with_mapping ['ب', phQlqla] ['ب', phQlqla]
        [⟨OpTag.equal, 0, 2, 0, 2⟩]
        (some [{ pos := (0, 1) }, { pos := (1, 2) }]) none
      = .ok (['ب', phQlqla],
          [{ pos := (0, 2) }, { pos := (2, 2), deleted := true }]) ∧
    ([{ pos := (0, 2) }, { pos := (2, 2), deleted := true }] : List MappingPos)
      ≠ [{ pos := (0, 1) }, { pos := (1, 2) }] := by
  constructor
  · rfl
  · decide

/-- C4, amended.  For a non-empty text carrying no qalqalah marker right after
a codepoint other than the skoon sign and the shadda, a never-matching
pattern (equal substituted text, the one-opcode identity edit script) returns
the text unchanged and leaves any contiguous well-formed accumulated mapping
unchanged, for every rule argument. -/
theorem claim_C4_identity_amended (text : List Char) (acc : List MappingPos)
    (rule : Option TajweedRule) (htext : text ≠ [])
    (hwf : ∀ x ∈ acc,
      (x.deleted = true → x.pos.1 = x.pos.2 ∧ x.pos.2 ≤ text.length) ∧
      (x.deleted = false → x.pos.1 < x.pos.2 ∧ x.pos.2 ≤ text.length))
    (hchain : chainOk text.length acc = true)
    (hq : ∀ (k : Nat) (a b : Char), text.get? k = some a →
      text.get? (k + 1) = some b →
      a = uthmaniRasHaaa ∨ a = uthmaniShadda ∨ b ≠ phQlqla) :
    sub_with_mapping text text [⟨OpTag.equal, 0, text.length, 0, text.length⟩]
        (some acc) rule = .ok (text, acc) := by
  simp only [sub_with_mapping]
  rw [if_neg htext]
  rw [get_mappings_identity text acc rule htext hwf hchain hq, ok_bind]
  rfl

/-- Witness for the amended C4 at the text `اب` with the accumulated mapping
`[(0, 1), (1, 2)]`. -/
theorem claim_C4_identity_amended_witness :
    sub_with_mapping ['ا', 'ب'] ['ا', 'ب'] [⟨OpTag.equal, 0, 2, 0, 2⟩]
        (some [{ pos := (0, 1) }, { pos := (1, 2) }]) none
      = .ok (['ا', 'ب'], [{ pos := (0, 1) }, { pos := (1, 2) }]) := by
  have h := claim_C4_identity_amended ['ا', 'ب']
    [{ pos := (0, 1) }, { pos := (1, 2) }] none
    (by decide)
    (by decide)
    (by decide)
    (by
      intro k a b ha hb
      cases k with
      | zero =>
        simp at ha hb
        subst ha
        subst hb
        right
        right
        decide
      | succ m =>
        cases m with
        | zero => simp at hb
        | succ m2 => simp at ha)
  exact h

end QuranTranscript
